import Mathlib

/-!
Verification of the KDABLabs/blogs-qt item-view drag-and-drop examples.

The development shallowly embeds the owning tree store (`treenode.h` /
`treeitem.cpp`), the hierarchical model adapter (`treemodel.cpp`), and the
flat folder/country models and widgets of the part1/part3 examples.

Node identity (C++ raw pointers) is modelled by an arena: a `TreeState`
holds a list of node records and a node id is a position in that list.
An id is allocated exactly when it is smaller than the arena length, so
"allocated ids are bounded" holds by construction.
-/

namespace DnD

/-- One tree node, as in `treenode.h`: column data (`m_itemData`, the
QVariantList modelled as a list of strings), the non-owning parent
back-reference (`m_parentNode`, null modelled as `none`), and the owned
ordered child sequence (`m_childNodes`, unique_ptrs modelled as ids). -/
structure TreeNodeRec where
  itemData : List String
  parentNode : Option Nat
  childNodes : List Nat
deriving Repr, DecidableEq

/-- The arena of all nodes ever allocated.  `unique_ptr` deletion is not
modelled (a detached node simply stops being referenced); this does not
affect any observable query. -/
structure TreeState where
  heap : List TreeNodeRec
deriving Repr, DecidableEq

/-- Dereference a node id (a C++ `TreeNode *`). -/
def getNode (s : TreeState) (i : Nat) : Option TreeNodeRec :=
  s.heap[i]?

/-- Overwrite the record of an allocated node. -/
def setNode (s : TreeState) (i : Nat) (n : TreeNodeRec) : TreeState :=
  ⟨s.heap.set i n⟩

/-- `new TreeNode(data, parent)`: allocate a fresh node with no children. -/
def allocNode (s : TreeState) (data : List String) (parent : Option Nat) :
    TreeState × Nat :=
  (⟨s.heap ++ [⟨data, parent, []⟩]⟩, s.heap.length)

/-- `TreeNode::appendChild`: `m_childNodes.push_back(std::move(child))`.
Note that the child's parent back-reference is *not* touched. -/
def appendChild (s : TreeState) (self child : Nat) : TreeState :=
  match getNode s self with
  | some n => setNode s self { n with childNodes := n.childNodes ++ [child] }
  | none => s

/-- `TreeNode::insertChild`: sets `child->m_parentNode = this` and inserts
the child at position `pos` of `m_childNodes`. -/
def insertChild (s : TreeState) (self : Nat) (pos : Nat) (child : Nat) :
    TreeState :=
  match getNode s child with
  | some cn =>
    let s1 := setNode s child { cn with parentNode := some self }
    match getNode s1 self with
    | some n => setNode s1 self { n with childNodes := n.childNodes.insertIdx pos child }
    | none => s1
  | none => s

/-- `TreeNode::takeChild`: moves the unique_ptr at position `row` out of
`m_childNodes` and erases that slot, returning the detached child.  The
C++ code indexes unconditionally (out of range is undefined behaviour);
the model returns `none` and leaves the state unchanged there, and every
theorem about `takeChild` carries the in-range precondition. -/
def takeChild (s : TreeState) (self : Nat) (row : Nat) :
    TreeState × Option Nat :=
  match getNode s self with
  | some n =>
    match n.childNodes[row]? with
    | some c => (setNode s self { n with childNodes := n.childNodes.eraseIdx row }, some c)
    | none => (s, none)
  | none => (s, none)

/-- `TreeNode::childCount`: `int(m_childNodes.size())`. -/
def childCount (s : TreeState) (self : Nat) : Nat :=
  match getNode s self with
  | some n => n.childNodes.length
  | none => 0

/-- `TreeNode::child(int row)`: bounds-checked child lookup returning
null (`none`) for a negative or too-large row. -/
def childQ (s : TreeState) (self : Nat) (row : Int) : Option Nat :=
  match getNode s self with
  | some n =>
    if 0 ≤ row ∧ row < (n.childNodes.length : Int) then n.childNodes[row.toNat]?
    else none
  | none => none

/-- `TreeNode::data(int column)`: `m_itemData.value(column)`; QList::value
returns a default-constructed (empty) QVariant out of range, modelled as
`none`. -/
def dataQ (s : TreeState) (self : Nat) (column : Int) : Option String :=
  match getNode s self with
  | some n =>
    if 0 ≤ column ∧ column < (n.itemData.length : Int) then n.itemData[column.toNat]?
    else none
  | none => none

/-- `TreeNode::parentNode`. -/
def parentOf (s : TreeState) (self : Nat) : Option Nat :=
  match getNode s self with
  | some n => n.parentNode
  | none => none

/-- `std::find_if` + `std::distance` over a child list: index of the first
occurrence of `x`. -/
def findIndex (x : Nat) : List Nat → Option Nat
  | [] => none
  | y :: ys => if y = x then some 0 else (findIndex x ys).map (· + 1)

/-- `TreeNode::row()`: 0 for a parentless node, otherwise the position of
this node in its parent's child sequence found by linear search; the
unreachable not-found branch (`Q_ASSERT(false)`) returns -1. -/
def rowOf (s : TreeState) (self : Nat) : Int :=
  match getNode s self with
  | none => 0
  | some n =>
    match n.parentNode with
    | none => 0
    | some p =>
      match getNode s p with
      | none => -1
      | some pn =>
        match findIndex self pn.childNodes with
        | some i => (i : Int)
        | none => -1

/-! ## Operation sequences on the tree store

The testable properties of the spec quantify over sequences of
`appendChild` / `insertChild` / `takeChild` operations.  `OpState` adds
to the arena the multiset of currently detached nodes (the unique_ptrs
held by the mutating caller), and `TreeOp` is one call:

* `newAppend self data ctorParent` is
  `self->appendChild(std::make_unique<TreeNode>(data, ctorParent))`,
  the only way `appendChild` is used in the repository;
* `insertDet self pos child` re-inserts a detached node,
  `self->insertChild(pos, std::move(child))`;
* `takeOp self row` is `self->takeChild(row)`.
-/

inductive TreeOp where
  | newAppend (self : Nat) (data : List String) (ctorParent : Option Nat)
  | insertDet (self : Nat) (pos : Nat) (child : Nat)
  | takeOp (self : Nat) (row : Nat)
deriving Repr, DecidableEq

structure OpState where
  tree : TreeState
  detached : List Nat
deriving Repr, DecidableEq

def runOp (st : OpState) : TreeOp → OpState
  | .newAppend self data ctorParent =>
    let (t, cid) := allocNode st.tree data ctorParent
    { st with tree := appendChild t self cid }
  | .insertDet self pos child =>
    { tree := insertChild st.tree self pos child
      detached := st.detached.erase child }
  | .takeOp self row =>
    { tree := (takeChild st.tree self row).1
      detached :=
        match (takeChild st.tree self row).2 with
        | some c => c :: st.detached
        | none => st.detached }

def runOps (st : OpState) (ops : List TreeOp) : OpState :=
  ops.foldl runOp st

/-- The preconditions under which the corresponding C++ call is defined
behaviour: the receiver exists, positions are in range, and only a
currently detached node can be re-inserted. -/
def validOp (st : OpState) : TreeOp → Bool
  | .newAppend self _ _ => (getNode st.tree self).isSome
  | .insertDet self pos child =>
    (getNode st.tree self).isSome && (getNode st.tree child).isSome &&
      st.detached.contains child && decide (pos ≤ childCount st.tree self)
  | .takeOp self row => decide (row < childCount st.tree self)

def validOps (st : OpState) : List TreeOp → Bool
  | [] => true
  | op :: ops => validOp st op && validOps (runOp st op) ops

/-- The discipline observed at `appendChild`'s only call site
(`TreeModel::setupModelData`): an appended child is constructed with the
appending node as its parent. -/
def disciplined : TreeOp → Bool
  | .newAppend self _ ctorParent => ctorParent == some self
  | _ => true

/-- A fresh store: one root node (id 0) with the given header data, no
parent and no children, nothing detached. -/
def initState (rootData : List String) : OpState :=
  { tree := ⟨[⟨rootData, none, []⟩]⟩, detached := [] }

/-! ## Fuel-bounded subtree traversals

The C++ code recurses over the real (finite, acyclic) pointer tree.  The
arena does not exclude cycles by type, so every traversal takes a fuel
bound; on the states the programs build, any fuel exceeding the arena
size completes the traversal. -/

/-- The subtree rooted at `a` is entirely defined (every reached id is
allocated) and every reached id satisfies `P`, within `fuel` levels. -/
def subtreeIn : Nat → TreeState → Nat → (Nat → Bool) → Bool
  | 0, _, _, _ => false
  | fuel + 1, s, a, P =>
    match getNode s a with
    | some n => P a && n.childNodes.all (fun c => subtreeIn fuel s c P)
    | none => false

/-- Structural equality of two subtrees (column data and child structure;
the non-owning parent back-reference is not part of a subtree's value). -/
def subtreeEqB : Nat → TreeState → Nat → TreeState → Nat → Bool
  | 0, _, _, _, _ => false
  | fuel + 1, s1, a, s2, b =>
    match getNode s1 a, getNode s2 b with
    | some na, some nb =>
      decide (na.itemData = nb.itemData) &&
      decide (na.childNodes.length = nb.childNodes.length) &&
      (na.childNodes.zip nb.childNodes).all (fun p => subtreeEqB fuel s1 p.1 s2 p.2)
    | _, _ => false

/-- Attach a freshly cloned child under a clone parent: set the child's
parent back-reference and push it onto the parent's child sequence. -/
def attachClone (s : TreeState) (parent cc : Nat) : TreeState :=
  let s1 :=
    match getNode s cc with
    | some cn => setNode s cc { cn with parentNode := some parent }
    | none => s
  match getNode s1 parent with
  | some pn => setNode s1 parent { pn with childNodes := pn.childNodes ++ [cc] }
  | none => s1

mutual

/-- Modelled from the spec: `TreeNode::clone`, whose definition is not in
the sources (only its call in `TreeModel::dropMimeData`); the spec says a
drop "clone[s] its subtree into the destination".  Deep-copies the
subtree rooted at `id` into fresh nodes: the clone root gets the same
column data, a null parent (the subsequent `insertChild` sets it), and
clones of the children in order.  `fuel` bounds the recursion depth; any
fuel above the arena size is enough on the acyclic states the program
builds, so the `none` branches are unreachable there. -/
def cloneNode : Nat → TreeState → Nat → TreeState × Option Nat
  | 0, s, _ => (s, none)
  | fuel + 1, s, id =>
    match getNode s id with
    | none => (s, none)
    | some n =>
      match allocNode s n.itemData none with
      | (s1, cid) =>
        match cloneKids fuel s1 n.childNodes cid with
        | (s2, true) => (s2, some cid)
        | (s2, false) => (s2, none)
termination_by fuel _ _ => (fuel, 0)

/-- Clone each source child in order and attach it under `parent`. -/
def cloneKids : Nat → TreeState → List Nat → Nat → TreeState × Bool
  | _, s, [], _ => (s, true)
  | fuel, s, c :: cs, parent =>
    match cloneNode fuel s c with
    | (s1, some cc) => cloneKids fuel (attachClone s1 parent cc) cs parent
    | (s1, none) => (s1, false)
termination_by fuel _ cs _ => (fuel, cs.length + 1)

end

/-! ## The tree model adapter (`treemodel.cpp`)

`QModelIndex` is modelled as `Option Nat`: `none` is the invalid index
(denoting the hidden root), `some i` a valid index whose
`internalPointer()` is node `i`.  Columns play no role in the drop logic
(`parent.siblingAtColumn(0)` keeps the same internal pointer), so they
are not modelled in the index.

Structural mutations are instrumented with an event trace recording the
`beginInsertRows` / `endInsertRows` / `beginRemoveRows` /
`endRemoveRows` notifications and, between them, every actual child
sequence mutation performed. -/

inductive ModelEvent where
  | beginIns (parentIdx : Option Nat) (first last : Int)
  | endIns
  | beginRem (parentIdx : Option Nat) (first last : Int)
  | endRem
  | mutIns (node : Nat) (pos : Nat)
  | mutRem (node : Nat) (pos : Nat)
deriving Repr, DecidableEq

/-- `TreeModel::nodeForIndex`: a valid index carries its node, the
invalid index denotes the root node. -/
def nodeForIndexId (rootId : Nat) (idx : Option Nat) : Nat :=
  idx.getD rootId

/-- `TreeModel::indexForItem`: the root gets the invalid index, any other
node a valid index carrying it. -/
def indexForItemId (rootId : Nat) (node : Nat) : Option Nat :=
  if node = rootId then none else some node

/-- `insertChild` call instrumented with its mutation event. -/
def insertChildT (s : TreeState) (self pos child : Nat) :
    TreeState × List ModelEvent :=
  (insertChild s self pos child, [.mutIns self pos])

/-- `takeChild` call instrumented with its mutation event. -/
def takeChildT (s : TreeState) (self row : Nat) :
    TreeState × Option Nat × List ModelEvent :=
  match takeChild s self row with
  | (t, some c) => (t, some c, [.mutRem self row])
  | (t, none) => (t, none, [])

/-- The payload carried under `"application/x-simpletreemodel-internalmove"`:
the sender's process id followed by a count and that many raw node
addresses (`TreeModel::mimeData` encodes them in this order).
`hasFormat = false` models a QMimeData that does not carry this mime
type at all. -/
structure TreeMime where
  hasFormat : Bool
  senderPid : Int
  nodePtrs : List Nat
deriving Repr, DecidableEq

/-- The insertion point computed by `TreeModel::dropMimeData` when
`row == -1`: dropping onto a valid index inserts as first child of that
node, dropping into empty space appends after the last top-level row. -/
def dropRow (s : TreeState) (rootId : Nat) (row : Int)
    (parentIdx : Option Nat) : Nat :=
  if row = -1 then
    if parentIdx.isSome then 0 else childCount s rootId
  else row.toNat

/-- One iteration of the drop loop: decode one node address, clone its
subtree and insert the clone at the running insertion point, wrapped in
the begin/end insert notifications naming the drop parent and the
affected single-row range. -/
def dropStep (rootId : Nat) (parentIdx : Option Nat)
    (acc : TreeState × Nat × List ModelEvent) (ptr : Nat) :
    TreeState × Nat × List ModelEvent :=
  match acc with
  | (st, r, evs) =>
    match cloneNode (st.heap.length + 1) st ptr with
    | (st1, some cid) =>
      match insertChildT st1 (nodeForIndexId rootId parentIdx) r cid with
      | (st2, evIns) =>
        (st2, r + 1,
          evs ++ [.beginIns parentIdx (r : Int) (r : Int)] ++ evIns ++ [.endIns])
    | (st1, none) => (st1, r, evs)

/-- `TreeModel::dropMimeData` (treemodel.cpp, part2): refuse a payload
without the private mime type, refuse a payload from another process,
then resolve the drop parent, map `row == -1` to the insertion point,
and for each encoded source node clone its subtree into the destination
at consecutive positions, each insertion wrapped in begin/end insert
notifications; returns `true` after an accepted drop. -/
def dropMimeDataT (s : TreeState) (rootId : Nat) (appPid : Int)
    (mime : TreeMime) (row : Int) (parentIdx : Option Nat) :
    TreeState × Bool × List ModelEvent :=
  if mime.hasFormat = false then (s, false, [])
  else if mime.senderPid ≠ appPid then (s, false, [])
  else
    let row0 := dropRow s rootId row parentIdx
    match mime.nodePtrs.foldl (dropStep rootId parentIdx) (s, row0, []) with
    | (sF, _, evs) => (sF, true, evs)

/-- `TreeModel::removeRows`: announce removal of rows
`row .. row+count-1` under `parent`, take that many children at
position `row`, announce completion, return true.  The asserted
preconditions (`row ≥ 0`, `row + count ≤ childCount`) are hypotheses of
the theorems. -/
def removeRowsT (s : TreeState) (rootId : Nat) (row count : Nat)
    (parentIdx : Option Nat) : TreeState × Bool × List ModelEvent :=
  let p := nodeForIndexId rootId parentIdx
  let body :=
    (List.range count).foldl
      (fun (acc : TreeState × List ModelEvent) _ =>
        match takeChildT acc.1 p row with
        | (t, _, ev) => (t, acc.2 ++ ev))
      (s, [])
  (body.1, true,
    [.beginRem parentIdx (row : Int) ((row : Int) + (count : Int) - 1)] ++
      body.2 ++ [.endRem])

/-- `TreeModel::removeNode`: look up the node's row, announce removal of
that single row under the node's parent index, detach it, announce
completion, and hand the ownership back.  A parentless node would be a
null dereference in C++; the model returns the state unchanged there and
theorems assume a parent. -/
def removeNodeT (s : TreeState) (rootId : Nat) (node : Nat) :
    TreeState × Option Nat × List ModelEvent :=
  match parentOf s node with
  | none => (s, none, [])
  | some p =>
    let row := (rowOf s node).toNat
    let parentIdx := indexForItemId rootId p
    match takeChildT s p row with
    | (t, c, ev) =>
      (t, c,
        [.beginRem parentIdx (row : Int) (row : Int)] ++ ev ++ [.endRem])

/-! ## The begin/end notification checker

A trace is well-formed when every child-sequence mutation happens inside
an open begin/end block of the matching kind whose announced parent
resolves to the mutated node and whose announced row range is exactly
the range the block's mutations realise: an insert block performs its
insertions at consecutive positions `first, first+1, ...` and closes
after `last - first + 1` of them; a remove block removes repeatedly at
position `first` and closes after `last - first + 1` removals. -/

structure OpenBlock where
  isIns : Bool
  parentIdx : Option Nat
  first : Int
  last : Int
  done : Nat
deriving Repr, DecidableEq

def traceStep (rootId : Nat) :
    Option OpenBlock × Bool → ModelEvent → Option OpenBlock × Bool
  | (none, ok), .beginIns p f l => (some ⟨true, p, f, l, 0⟩, ok)
  | (none, ok), .beginRem p f l => (some ⟨false, p, f, l, 0⟩, ok)
  | (some b, ok), .mutIns node pos =>
    (some { b with done := b.done + 1 },
      ok && b.isIns && decide (nodeForIndexId rootId b.parentIdx = node) &&
        decide ((pos : Int) = b.first + (b.done : Int)) &&
        decide (b.first + (b.done : Int) ≤ b.last))
  | (some b, ok), .mutRem node pos =>
    (some { b with done := b.done + 1 },
      ok && !b.isIns && decide (nodeForIndexId rootId b.parentIdx = node) &&
        decide ((pos : Int) = b.first) &&
        decide (b.first + (b.done : Int) ≤ b.last))
  | (some b, ok), .endIns =>
    (none, ok && b.isIns && decide (b.first + (b.done : Int) = b.last + 1))
  | (some b, ok), .endRem =>
    (none, ok && !b.isIns && decide (b.first + (b.done : Int) = b.last + 1))
  | (_, _), _ => (none, false)

def checkTrace (rootId : Nat) (evs : List ModelEvent) : Bool :=
  match evs.foldl (traceStep rootId) (none, true) with
  | (blk, ok) => ok && blk.isNone

/-! ## `TreeModel::mimeData` and the flat models' `mimeData` (C10)

With a QTreeView the index list holds one index per (row, column) pair,
so each implementation deduplicates before encoding. -/

/-- The deduplicating accumulation pattern shared by the three
implementations: keep each key at its first occurrence. -/
def keysFirst (ks : List Nat) : List Nat :=
  ks.foldl (fun acc k => if acc.contains k then acc else acc ++ [k]) []

/-- `TreeModel::mimeData`: collect `internalPointer()` of each index,
skipping nodes already collected (`draggedNodes.contains`), and encode
the pid, the count and the addresses in that order. -/
def treeMimeData (appPid : Int) (indexPtrs : List Nat) : TreeMime :=
  { hasFormat := true, senderPid := appPid, nodePtrs := keysFirst indexPtrs }

/-- An email folder (part3 examples): a name and the contained emails. -/
structure EmailFolder where
  folderName : String
  emails : List String
deriving Repr, DecidableEq

/-- `EmailsModel::mimeData` (drop-onto-items-with-model-view.cpp):
serialize the source folder's name, then the emails of the dragged rows,
deduplicating rows via `seenRows` in first-occurrence order. -/
def emailsMimeData (folder : EmailFolder) (rows : List Nat) :
    String × List String :=
  (folder.folderName, (keysFirst rows).map (fun r => folder.emails.getD r ""))

/-- One country record of the part1/part2 flat model. -/
structure CountryData where
  country : String
  population : Int
deriving Repr, DecidableEq

/-- `CountryModel::mimeData` (move-between-views-with-model-view.cpp):
serialize the records of the dragged rows, deduplicating rows via
`seenRows` in first-occurrence order. -/
def countryMimeData (data : List CountryData) (rows : List Nat) :
    List CountryData :=
  (keysFirst rows).map (fun r => data.getD r ⟨"", 0⟩)

/-! ## The folder drop handlers (C1)

Three more drop handlers beside the tree model: the flat
`FoldersModel` (model/view part3), and the `FoldersListWidget` /
`FoldersTableWidget` widget subclasses.  Their source-side state (the
dragged widget's items) is part of the handler state because the widget
handlers mutate it on a move. -/

/-- Payload under `"application/x-emails-list"` as encoded by
`EmailsModel::mimeData`: the source folder's *name* followed by the
dragged emails.  `none` models a byte stream that is empty because the
QMimeData did not carry this format (`stream.atEnd()` on entry). -/
structure EmailsPayload where
  sourceFolder : String
  emails : List String
deriving Repr, DecidableEq

/-- `FoldersModel::dropMimeData` (drop-onto-items-with-model-view.cpp):
refuse drops that are not onto an item, refuse an empty stream, decode
the source folder name, refuse a drop onto the folder of the same name,
otherwise append all decoded emails to the destination folder.  The
`dataChanged` signal carries no structural change and is not modelled. -/
def foldersModelDrop (folders : List EmailFolder)
    (payload : Option EmailsPayload) (parentIdx : Option Nat) :
    List EmailFolder × Bool :=
  match parentIdx with
  | none => (folders, false)
  | some r =>
    match folders[r]? with
    | none => (folders, false)
    | some destFolder =>
      match payload with
      | none => (folders, false)
      | some pl =>
        if pl.sourceFolder = destFolder.folderName then (folders, false)
        else
          (folders.set r
            { destFolder with emails := destFolder.emails ++ pl.emails },
            true)

/-- An item of the drag-side widget: its address (id) and its text. -/
structure WidgetItem where
  itemId : Nat
  text : String
deriving Repr, DecidableEq

/-- State seen by the widget drop handlers: the application's folder
vector (folder addresses are positions) and the drag-side widget's
current item list. -/
structure WidgetState where
  folders : List EmailFolder
  srcItems : List WidgetItem
deriving Repr, DecidableEq

/-- Payload as encoded by `EmailsListWidget::mimeData` /
`EmailsTableWidget::mimeData`: the sender's pid, the source folder's
address, and the dragged items' addresses.  `none` models an empty byte
stream (unrecognized mime type, `stream.atEnd()` on entry). -/
structure WidgetPayload where
  senderPid : Int
  sourceFolderPtr : Nat
  emailItemPtrs : List Nat
deriving Repr, DecidableEq

/-- Position of an item id in the drag-side widget
(`listWidget()->row(item)` / `tableWidget()->row(item)`). -/
def itemRow (items : List WidgetItem) (ptr : Nat) : Option Nat :=
  items.findIdx? (fun it => it.itemId = ptr)

/-- Remove the email at `row` from folder `f` of the folder vector
(`sourceFolder->emails.removeAt(row)`). -/
def removeEmailAt (folders : List EmailFolder) (f : Nat) (row : Nat) :
    List EmailFolder :=
  match folders[f]? with
  | some fo => folders.set f { fo with emails := fo.emails.eraseIdx row }
  | none => folders

/-- Append an email to folder `f` (`destFolder->emails.append(text)`). -/
def appendEmail (folders : List EmailFolder) (f : Nat) (text : String) :
    List EmailFolder :=
  match folders[f]? with
  | some fo => folders.set f { fo with emails := fo.emails ++ [text] }
  | none => folders

/-- The shared per-item body of the two widget drop loops: append the
item's text to the destination folder and, on a move, remove the email
at the item's current row from the source folder and delete the item
from the drag-side widget.  A dangling item address would be undefined
behaviour in C++; the model skips it (unreachable for payloads produced
by the widget's own `mimeData`). -/
def widgetDropStep (destPtr srcPtr : Nat) (isMove : Bool)
    (st : WidgetState) (ptr : Nat) : WidgetState :=
  match st.srcItems.find? (fun it => it.itemId = ptr) with
  | none => st
  | some it =>
    let folders1 := appendEmail st.folders destPtr it.text
    if isMove then
      match itemRow st.srcItems ptr with
      | some row =>
        { folders := removeEmailAt folders1 srcPtr row
          srcItems := st.srcItems.eraseIdx row }
      | none => { st with folders := folders1 }
    else { st with folders := folders1 }

/-- `FoldersListWidget::dropMimeData` (drop-onto-qlistwidgetitems.cpp):
refuse an empty stream, a foreign process id, or a drop onto the source
folder itself; otherwise run the per-item loop.  Deliberately returns
`false` even after handling the drop, so that QListWidget does not
delete the source items a second time. -/
def foldersListWidgetDrop (st : WidgetState) (appPid : Int)
    (destPtr : Nat) (payload : Option WidgetPayload) (isMove : Bool) :
    WidgetState × Bool :=
  match payload with
  | none => (st, false)
  | some pl =>
    if pl.senderPid ≠ appPid then (st, false)
    else if pl.sourceFolderPtr = destPtr then (st, false)
    else
      (pl.emailItemPtrs.foldl (widgetDropStep destPtr pl.sourceFolderPtr isMove) st,
        false)

/-- `FoldersTableWidget::dropMimeData` (drop-onto-qtablewidgetitems.cpp):
identical decision structure to the list widget handler; the table
variant additionally refreshes the derived count column
(`updateCounts`), which displays `folders` data and carries no state of
its own. -/
def foldersTableWidgetDrop (st : WidgetState) (appPid : Int)
    (destPtr : Nat) (payload : Option WidgetPayload) (isMove : Bool) :
    WidgetState × Bool :=
  match payload with
  | none => (st, false)
  | some pl =>
    if pl.senderPid ≠ appPid then (st, false)
    else if pl.sourceFolderPtr = destPtr then (st, false)
    else
      (pl.emailItemPtrs.foldl (widgetDropStep destPtr pl.sourceFolderPtr isMove) st,
        false)

/-- The specification-side characterization of first-occurrence
deduplication: keep each key's first occurrence, drop later ones. -/
def dedupFO : List Nat → List Nat
  | [] => []
  | k :: ks => k :: (dedupFO ks).filter (fun x => x ≠ k)

/-- Is the operation an `appendChild` on node `x`? -/
def isAppendOn (x : Nat) : TreeOp → Bool
  | .newAppend self _ _ => self == x
  | _ => false

/-- Is the operation an `insertChild` on node `x`? -/
def isInsertOn (x : Nat) : TreeOp → Bool
  | .insertDet self _ _ => self == x
  | _ => false

/-- Is the operation a `takeChild` on node `x`? -/
def isTakeOn (x : Nat) : TreeOp → Bool
  | .takeOp self _ => self == x
  | _ => false

/-- The structural content of a node: its column data and child ids.
The non-owning parent back-reference is not part of a subtree's value
(cloning and subtree comparison ignore it). -/
def nodeShadow (n : TreeNodeRec) : List String × List Nat :=
  (n.itemData, n.childNodes)

def shadowAt (s : TreeState) (i : Nat) : Option (List String × List Nat) :=
  (getNode s i).map nodeShadow

/-- The id region `[lo, hi)`. -/
def betw (lo hi : Nat) : Nat → Bool :=
  fun i => decide (lo ≤ i) && decide (i < hi)

/-! # Theorems -/

/-! ## Arena basics -/

theorem getNode_lt {s : TreeState} {i : Nat} {n : TreeNodeRec}
    (h : getNode s i = some n) : i < s.heap.length := by
  by_contra hge
  rw [getNode, List.getElem?_eq_none (Nat.le_of_not_lt hge)] at h
  exact Option.noConfusion h

theorem length_setNode (s : TreeState) (i : Nat) (n : TreeNodeRec) :
    (setNode s i n).heap.length = s.heap.length := by
  simp [setNode]

theorem getNode_setNode {s : TreeState} {i : Nat} {m : TreeNodeRec}
    (h : getNode s i = some m) (n : TreeNodeRec) (j : Nat) :
    getNode (setNode s i n) j = if j = i then some n else getNode s j := by
  have hi := getNode_lt h
  by_cases hji : j = i
  · subst hji
    simp [getNode, setNode, List.getElem?_set, hi]
  · simp [getNode, setNode, List.getElem?_set, hji, Ne.symm hji]

theorem length_allocNode (s : TreeState) (d : List String) (p : Option Nat) :
    (allocNode s d p).1.heap.length = s.heap.length + 1 := by
  simp [allocNode]

theorem getNode_allocNode (s : TreeState) (d : List String) (p : Option Nat)
    (j : Nat) :
    getNode (allocNode s d p).1 j =
      if j = s.heap.length then some ⟨d, p, []⟩ else getNode s j := by
  by_cases hj : j = s.heap.length
  · subst hj
    simp [getNode, allocNode]
  · rcases Nat.lt_or_ge j s.heap.length with hlt | hge
    · simp [getNode, allocNode, List.getElem?_append, hlt, hj]
    · have hge' : s.heap.length < j := Nat.lt_of_le_of_ne hge (fun h => hj h.symm)
      simp only [getNode, allocNode, if_neg hj]
      rw [List.getElem?_eq_none, List.getElem?_eq_none]
      · exact Nat.le_of_lt hge'
      · simpa using hge'

/-! ## `findIndex` (the `std::find_if` / `std::distance` linear search) -/

theorem findIndex_eq_some {x : Nat} {l : List Nat} {i : Nat}
    (h1 : l[i]? = some x) (h2 : ∀ j, j < i → l[j]? ≠ some x) :
    findIndex x l = some i := by
  induction l generalizing i with
  | nil => simp at h1
  | cons y ys ih =>
    cases i with
    | zero =>
      simp only [List.getElem?_cons_zero, Option.some_inj] at h1
      simp [findIndex, h1]
    | succ i =>
      have hy : ¬(y = x) := by
        intro he
        exact h2 0 (Nat.succ_pos i) (by simp [he])
      have h2' : ∀ j, j < i → ys[j]? ≠ some x := by
        intro j hj hmem
        exact h2 (j + 1) (Nat.succ_lt_succ hj) (by simpa using hmem)
      have := ih (by simpa using h1) h2'
      simp [findIndex, hy, this]

theorem findIndex_some_of_mem {x : Nat} {l : List Nat} (h : x ∈ l) :
    ∃ i, findIndex x l = some i ∧ l[i]? = some x := by
  induction l with
  | nil => simp at h
  | cons y ys ih =>
    by_cases hy : y = x
    · exact ⟨0, by simp [findIndex, hy], by simp [hy]⟩
    · have hmem : x ∈ ys := by
        rcases List.mem_cons.mp h with h | h
        · exact absurd h.symm hy
        · exact h
      rcases ih hmem with ⟨i, hfi, hget⟩
      exact ⟨i + 1, by simp [findIndex, hy, hfi], by simpa using hget⟩

/-- C9: `TreeNode::child(row)` returns null whenever `row` is negative or
not below `childCount()`, and `TreeNode::data(column)` returns an empty
value whenever `column` is outside the column range; both are pure
queries of the node (they take and produce no state). -/
theorem child_data_out_of_range (s : TreeState) (self : Nat)
    (n : TreeNodeRec) (hn : getNode s self = some n) (row column : Int) :
    ((row < 0 ∨ (childCount s self : Int) ≤ row) → childQ s self row = none) ∧
    ((column < 0 ∨ (n.itemData.length : Int) ≤ column) →
      dataQ s self column = none) := by
  constructor
  · intro hout
    have hcc : childCount s self = n.childNodes.length := by
      simp [childCount, hn]
    rw [hcc] at hout
    simp only [childQ, hn]
    rw [if_neg]
    rintro ⟨h0, hlt⟩
    rcases hout with h | h
    · exact absurd h0 (not_le.mpr h)
    · exact absurd hlt (not_lt.mpr h)
  · intro hout
    simp only [dataQ, hn]
    rw [if_neg]
    rintro ⟨h0, hlt⟩
    rcases hout with h | h
    · exact absurd h0 (not_le.mpr h)
    · exact absurd hlt (not_lt.mpr h)

theorem child_data_out_of_range_witness :
    childQ ⟨[⟨["a", "b"], none, [1]⟩, ⟨["c"], some 0, []⟩]⟩ 0 7 = none ∧
    dataQ ⟨[⟨["a", "b"], none, [1]⟩, ⟨["c"], some 0, []⟩]⟩ 0 (-1) = none := by
  have h := child_data_out_of_range ⟨[⟨["a", "b"], none, [1]⟩, ⟨["c"], some 0, []⟩]⟩
    0 ⟨["a", "b"], none, [1]⟩ (by decide) 7 (-1)
  exact ⟨h.1 (by decide), h.2 (by decide)⟩

/-- C5: `TreeNode::row()` returns the position of the node in its
parent's child sequence (the first index at which the linear sibling
search finds it), and 0 for a node with no parent. -/
theorem rowOf_position (s : TreeState) (self p i : Nat)
    (n pn : TreeNodeRec) (hn : getNode s self = some n) :
    (n.parentNode = none → rowOf s self = 0) ∧
    (n.parentNode = some p → getNode s p = some pn →
      pn.childNodes[i]? = some self →
      (∀ j, j < i → pn.childNodes[j]? ≠ some self) →
      rowOf s self = (i : Int)) := by
  constructor
  · intro hpar
    simp [rowOf, hn, hpar]
  · intro hpar hp hi hfirst
    have hfi := findIndex_eq_some hi hfirst
    simp [rowOf, hn, hpar, hp, hfi]

theorem rowOf_position_witness :
    rowOf ⟨[⟨["r"], none, [2, 1]⟩, ⟨["a"], some 0, []⟩, ⟨["b"], some 0, []⟩]⟩ 1 = 1 ∧
    rowOf ⟨[⟨["r"], none, [2, 1]⟩, ⟨["a"], some 0, []⟩, ⟨["b"], some 0, []⟩]⟩ 0 = 0 := by
  have h1 := rowOf_position ⟨[⟨["r"], none, [2, 1]⟩, ⟨["a"], some 0, []⟩, ⟨["b"], some 0, []⟩]⟩
    1 0 1 ⟨["a"], some 0, []⟩ ⟨["r"], none, [2, 1]⟩ (by decide)
  have h2 := rowOf_position ⟨[⟨["r"], none, [2, 1]⟩, ⟨["a"], some 0, []⟩, ⟨["b"], some 0, []⟩]⟩
    0 0 0 ⟨["r"], none, [2, 1]⟩ ⟨["r"], none, [2, 1]⟩ (by decide)
  refine ⟨?_, h2.1 (by decide)⟩
  exact h1.2 (by decide) (by decide) (by decide) (by decide)

/-- C6: appending "A", "B", "C" under a fresh root, taking the child at
position 1 ("B") and re-inserting it at position 0 yields sibling data
order "B", "A", "C" with `row()` of "B" equal to 0; the operation
sequence is valid throughout. -/
theorem scenario_take_reinsert :
    validOps (initState ["Root"])
      [.newAppend 0 ["A"] (some 0), .newAppend 0 ["B"] (some 0),
        .newAppend 0 ["C"] (some 0), .takeOp 0 1, .insertDet 0 0 2] = true ∧
    ((getNode (runOps (initState ["Root"])
      [.newAppend 0 ["A"] (some 0), .newAppend 0 ["B"] (some 0),
        .newAppend 0 ["C"] (some 0), .takeOp 0 1, .insertDet 0 0 2]).tree 0).map
      (fun n => n.childNodes.map
        (fun c => ((getNode (runOps (initState ["Root"])
          [.newAppend 0 ["A"] (some 0), .newAppend 0 ["B"] (some 0),
            .newAppend 0 ["C"] (some 0), .takeOp 0 1, .insertDet 0 0 2]).tree c).map
          TreeNodeRec.itemData)))) = some [some ["B"], some ["A"], some ["C"]] ∧
    rowOf (runOps (initState ["Root"])
      [.newAppend 0 ["A"] (some 0), .newAppend 0 ["B"] (some 0),
        .newAppend 0 ["C"] (some 0), .takeOp 0 1, .insertDet 0 0 2]).tree 2 = 0 := by
  decide

/-! ## Bookkeeping of the child count (C4) -/

theorem childCount_setNode {s : TreeState} {i : Nat} {m : TreeNodeRec}
    (h : getNode s i = some m) (n : TreeNodeRec) (j : Nat) :
    childCount (setNode s i n) j =
      if j = i then n.childNodes.length else childCount s j := by
  rw [childCount, getNode_setNode h]
  by_cases hj : j = i
  · simp [hj]
  · simp [hj, childCount]

theorem childCount_allocNode (s : TreeState) (d : List String)
    (p : Option Nat) (j : Nat) :
    childCount (allocNode s d p).1 j =
      if j = s.heap.length then 0 else childCount s j := by
  rw [childCount, getNode_allocNode]
  by_cases hj : j = s.heap.length
  · simp [hj]
  · simp [hj, childCount]

theorem insertChild_eq {s : TreeState} {child : Nat} {cn : TreeNodeRec}
    (hc : getNode s child = some cn) (self pos : Nat) :
    insertChild s self pos child =
      match getNode (setNode s child { cn with parentNode := some self }) self with
      | some n =>
        setNode (setNode s child { cn with parentNode := some self }) self
          { n with childNodes := n.childNodes.insertIdx pos child }
      | none => setNode s child { cn with parentNode := some self } := by
  simp [insertChild, hc]

theorem length_runOp (st : OpState) (op : TreeOp) :
    st.tree.heap.length ≤ (runOp st op).tree.heap.length := by
  cases op with
  | newAppend self data cp =>
    simp only [runOp, appendChild]
    split <;> simp [length_setNode, length_allocNode]
  | insertDet self pos child =>
    simp only [runOp, insertChild]
    split
    · split <;> simp [length_setNode]
    · simp
  | takeOp self row =>
    simp only [runOp, takeChild]
    repeat' split
    all_goals simp [length_setNode]

theorem childCount_runOp (st : OpState) (op : TreeOp) (x : Nat)
    (hx : x < st.tree.heap.length) (hv : validOp st op = true) :
    childCount (runOp st op).tree x + (if isTakeOn x op then 1 else 0) =
      childCount st.tree x + (if isAppendOn x op then 1 else 0) +
        (if isInsertOn x op then 1 else 0) := by
  cases op with
  | newAppend self data cp =>
    simp only [validOp, Option.isSome_iff_exists] at hv
    rcases hv with ⟨n, hs⟩
    have hslt := getNode_lt hs
    have hs' : getNode (allocNode st.tree data cp).1 self = some n := by
      rw [getNode_allocNode]
      simp [Nat.ne_of_lt hslt, hs]
    have happ : (runOp st (.newAppend self data cp)).tree =
        setNode (allocNode st.tree data cp).1 self
          { n with childNodes := n.childNodes ++ [(allocNode st.tree data cp).2] } := by
      simp [runOp, appendChild, hs']
    rw [happ, childCount_setNode hs', childCount_allocNode]
    simp only [isAppendOn, isInsertOn, isTakeOn]
    by_cases hxs : x = self
    · subst hxs
      have hx0 : childCount st.tree x = n.childNodes.length := by
        simp [childCount, hs]
      simp [Nat.ne_of_lt hx, hx0]
    · have hbeq : (self == x) = false := by
        simp
        intro h
        exact hxs h.symm
      simp [hxs, Nat.ne_of_lt hx, hbeq]
  | insertDet self pos child =>
    simp only [validOp, Bool.and_eq_true, Option.isSome_iff_exists,
      decide_eq_true_eq] at hv
    rcases hv with ⟨⟨⟨⟨n, hs⟩, cn, hc⟩, _hdet⟩, hpos⟩
    have hcset : getNode (setNode st.tree child { cn with parentNode := some self }) self =
        some (if self = child then { cn with parentNode := some self } else n) := by
      rw [getNode_setNode hc]
      by_cases hsc : self = child
      · simp [hsc]
      · simp [hsc, hs]
    have htree : (runOp st (.insertDet self pos child)).tree =
        setNode (setNode st.tree child { cn with parentNode := some self }) self
          { (if self = child then { cn with parentNode := some self } else n) with
            childNodes :=
              (if self = child then { cn with parentNode := some self } else n).childNodes.insertIdx pos child } := by
      simp only [runOp]
      rw [insertChild_eq hc, hcset]
    have hcount : childCount st.tree self =
        (if self = child then { cn with parentNode := some self } else n).childNodes.length := by
      by_cases hsc : self = child
      · subst hsc
        rw [hs] at hc
        injection hc with h
        subst h
        simp [childCount, hs]
      · simp [hsc, childCount, hs]
    rw [htree, childCount_setNode hcset, childCount_setNode hc]
    simp only [isAppendOn, isInsertOn, isTakeOn]
    by_cases hxs : x = self
    · subst hxs
      rw [if_pos rfl]
      rw [List.length_insertIdx pos _ (by rw [← hcount]; exact hpos)]
      simp [hcount]
    · have hbeq : (self == x) = false := by
        simp
        intro h
        exact hxs h.symm
      rw [if_neg hxs]
      by_cases hxc : x = child
      · subst hxc
        simp [hbeq, childCount, hc]
      · simp [hbeq, hxc, childCount]
  | takeOp self row =>
    simp only [validOp, decide_eq_true_eq] at hv
    rcases hs : getNode st.tree self with _ | n
    · simp [childCount, hs] at hv
    · have hrow : row < n.childNodes.length := by
        simpa [childCount, hs] using hv
      have hcel : n.childNodes[row]? = some n.childNodes[row] :=
        List.getElem?_eq_getElem hrow
      have htree : (runOp st (.takeOp self row)).tree =
          setNode st.tree self { n with childNodes := n.childNodes.eraseIdx row } := by
        simp [runOp, takeChild, hs, hcel]
      rw [htree, childCount_setNode hs]
      simp only [isAppendOn, isInsertOn, isTakeOn]
      by_cases hxs : x = self
      · subst hxs
        have hx0 : childCount st.tree x = n.childNodes.length := by
          simp [childCount, hs]
        rw [if_pos rfl, List.length_eraseIdx]
        simp [hrow, hx0]
        omega
      · have hbeq : (self == x) = false := by
          simp
          intro h
          exact hxs h.symm
        simp [hxs, hbeq]


theorem childCount_runOps (ops : List TreeOp) (st : OpState) (x : Nat)
    (hx : x < st.tree.heap.length) (hv : validOps st ops = true) :
    childCount (runOps st ops).tree x + ops.countP (isTakeOn x) =
      childCount st.tree x + ops.countP (isAppendOn x) +
        ops.countP (isInsertOn x) := by
  induction ops generalizing st with
  | nil => simp [runOps, List.countP, List.countP.go]
  | cons op ops ih =>
    simp only [validOps, Bool.and_eq_true] at hv
    have hstep := childCount_runOp st op x hx hv.1
    have hx' : x < (runOp st op).tree.heap.length :=
      Nat.lt_of_lt_of_le hx (length_runOp st op)
    have hrec := ih (runOp st op) hx' hv.2
    have hops : runOps st (op :: ops) = runOps (runOp st op) ops := by
      simp [runOps]
    rw [hops]
    rw [List.countP_cons, List.countP_cons, List.countP_cons]
    by_cases h1 : isTakeOn x op = true <;>
      by_cases h2 : isAppendOn x op = true <;>
        by_cases h3 : isInsertOn x op = true <;>
          simp [h1, h2, h3] at hstep ⊢ <;> omega

/-- C4: for a node with no children and any valid sequence of
append/insert/take operations, the final `childCount()` equals the
number of appends plus positional insertions minus the number of
detachments performed on that node. -/
theorem childCount_net_insertions (st : OpState) (ops : List TreeOp)
    (x : Nat) (xn : TreeNodeRec) (hx : getNode st.tree x = some xn)
    (h0 : xn.childNodes = []) (hv : validOps st ops = true) :
    (childCount (runOps st ops).tree x : Int) =
      (ops.countP (isAppendOn x) : Int) + (ops.countP (isInsertOn x) : Int) -
        (ops.countP (isTakeOn x) : Int) := by
  have h := childCount_runOps ops st x (getNode_lt hx) hv
  have hc0 : childCount st.tree x = 0 := by
    simp [childCount, hx, h0]
  rw [hc0] at h
  omega

theorem childCount_net_insertions_witness :
    (childCount (runOps (initState ["Root"])
      [.newAppend 0 ["A"] (some 0), .newAppend 0 ["B"] (some 0),
        .takeOp 0 0]).tree 0 : Int) = 1 := by
  have h := childCount_net_insertions (initState ["Root"])
    [.newAppend 0 ["A"] (some 0), .newAppend 0 ["B"] (some 0), .takeOp 0 0]
    0 ⟨["Root"], none, []⟩ (by decide) (by decide) (by decide)
  exact h.trans (by decide)

/-! ## The ownership invariant of the tree store (C3) -/

theorem not_mem_eraseIdx_of_nodup {l : List Nat} {i : Nat} {a : Nat}
    (h : l.Nodup) (hi : l[i]? = some a) : a ∉ l.eraseIdx i := by
  intro hmem
  have hlt : i < l.length := by
    by_contra hge
    rw [List.getElem?_eq_none (Nat.le_of_not_lt hge)] at hi
    exact Option.noConfusion hi
  have ha : l[i] = a := by
    rw [List.getElem?_eq_getElem hlt] at hi
    injection hi
  have hdecomp : l.take i ++ a :: l.drop (i + 1) = l := by
    rw [← ha, List.getElem_cons_drop]
    exact List.take_append_drop i l
  have hcount : l.count a ≤ 1 := List.nodup_iff_count_le_one.mp h _
  have h1 : 1 ≤ (l.eraseIdx i).count a := List.count_pos_iff.mpr hmem
  rw [List.eraseIdx_eq_take_drop_succ, List.count_append] at h1
  conv at hcount => rw [← hdecomp]
  rw [List.count_append, List.count_cons_self] at hcount
  omega

theorem mem_insertIdx_iff {l : List Nat} {pos a x : Nat} (h : pos ≤ l.length) :
    x ∈ l.insertIdx pos a ↔ x = a ∨ x ∈ l := by
  rw [(List.perm_insertIdx a l h).mem_iff, List.mem_cons]

theorem nodup_insertIdx_of {l : List Nat} {pos a : Nat} (h : pos ≤ l.length)
    (ha : a ∉ l) (hn : l.Nodup) : (l.insertIdx pos a).Nodup := by
  rw [(List.perm_insertIdx a l h).nodup_iff]
  exact List.nodup_cons.mpr ⟨ha, hn⟩

/-- The consistency invariant of the tree store: the root exists and has
no parent; every owned child's parent back-reference names its owner;
child sequences have no duplicates and no id is owned twice; detached
nodes are allocated, unowned, pairwise distinct, and never the root. -/
structure StoreInv (st : OpState) : Prop where
  rootEx : (getNode st.tree 0).isSome
  rootPar : ∀ rn, getNode st.tree 0 = some rn → rn.parentNode = none
  backRef : ∀ p pn, getNode st.tree p = some pn → ∀ c ∈ pn.childNodes,
    ∃ cn, getNode st.tree c = some cn ∧ cn.parentNode = some p
  nodupCh : ∀ p pn, getNode st.tree p = some pn → pn.childNodes.Nodup
  crossUniq : ∀ p pn q qn c, getNode st.tree p = some pn →
    getNode st.tree q = some qn → c ∈ pn.childNodes → c ∈ qn.childNodes →
    p = q
  detNotOwned : ∀ c ∈ st.detached, ∀ p pn, getNode st.tree p = some pn →
    c ∉ pn.childNodes
  detAlloc : ∀ c ∈ st.detached, (getNode st.tree c).isSome
  detNodup : st.detached.Nodup
  rootNotDet : 0 ∉ st.detached

theorem StoreInv.child_lt {st : OpState} (hI : StoreInv st) {p : Nat}
    {pn : TreeNodeRec} (hp : getNode st.tree p = some pn) {c : Nat}
    (hc : c ∈ pn.childNodes) : c < st.tree.heap.length := by
  rcases hI.backRef p pn hp c hc with ⟨cn, hcn, _⟩
  exact getNode_lt hcn

theorem StoreInv.root_not_owned {st : OpState} (hI : StoreInv st) {p : Nat}
    {pn : TreeNodeRec} (hp : getNode st.tree p = some pn) :
    0 ∉ pn.childNodes := by
  intro hmem
  rcases hI.backRef p pn hp 0 hmem with ⟨cn, hcn, hpar⟩
  rw [hI.rootPar cn hcn] at hpar
  exact Option.noConfusion hpar

theorem storeInv_newAppend (st : OpState) (self : Nat) (data : List String)
    (hI : StoreInv st) (hv : validOp st (.newAppend self data (some self)) = true) :
    StoreInv (runOp st (.newAppend self data (some self))) := by
  simp only [validOp, Option.isSome_iff_exists] at hv
  rcases hv with ⟨n, hs⟩
  have hslt := getNode_lt hs
  set L := st.tree.heap.length with hL
  have hs' : getNode (allocNode st.tree data (some self)).1 self = some n := by
    rw [getNode_allocNode]
    simp [Nat.ne_of_lt hslt, hs]
  have hs2 : getNode (⟨st.tree.heap ++ [⟨data, some self, []⟩]⟩ : TreeState) self = some n := hs'
  have htree : (runOp st (.newAppend self data (some self))).tree =
      setNode (allocNode st.tree data (some self)).1 self
        { n with childNodes := n.childNodes ++ [L] } := by
    simp only [runOp, allocNode, appendChild]
    rw [hs2]
  have hdet : (runOp st (.newAppend self data (some self))).detached =
      st.detached := by
    simp [runOp]
  have hdesc : ∀ j, getNode (runOp st (.newAppend self data (some self))).tree j =
      if j = self then some { n with childNodes := n.childNodes ++ [L] }
      else if j = L then some ⟨data, some self, []⟩
      else getNode st.tree j := by
    intro j
    rw [htree, getNode_setNode hs', getNode_allocNode]
  have hmem_self : ∀ c, c ∈ n.childNodes ++ [L] ↔ c ∈ n.childNodes ∨ c = L := by
    intro c
    simp
  constructor
  case rootEx =>
    rw [hdesc 0]
    by_cases h0 : 0 = self
    · simp [h0]
    · have h0L : (0 : Nat) ≠ L := by
        have : (getNode st.tree 0).isSome := hI.rootEx
        rw [Option.isSome_iff_exists] at this
        rcases this with ⟨rn, hrn⟩
        exact Nat.ne_of_lt (getNode_lt hrn)
      simp only [if_neg h0, if_neg h0L]
      exact hI.rootEx
  case rootPar =>
    intro rn hrn
    rw [hdesc 0] at hrn
    by_cases h0 : 0 = self
    · rw [if_pos h0] at hrn
      injection hrn with h
      subst h
      have := hI.rootPar n (h0 ▸ hs)
      simpa using this
    · have h0L : (0 : Nat) ≠ L := by
        rcases Option.isSome_iff_exists.mp hI.rootEx with ⟨rn0, hrn0⟩
        exact Nat.ne_of_lt (getNode_lt hrn0)
      rw [if_neg h0, if_neg h0L] at hrn
      exact hI.rootPar rn hrn
  case backRef =>
    intro p pn hp c hc
    rw [hdesc p] at hp
    by_cases hpself : p = self
    · rw [if_pos hpself] at hp
      injection hp with hpn
      subst hpn
      rcases (hmem_self c).mp hc with hold | hcl
      · rcases hI.backRef self n hs c hold with ⟨cn, hcn, hpar⟩
        by_cases hcs : c = self
        · refine ⟨{ n with childNodes := n.childNodes ++ [L] }, ?_, ?_⟩
          · rw [hdesc c, if_pos hcs]
          · rw [hcs] at hcn
            rw [hs] at hcn
            injection hcn with h
            subst h
            simpa [hpself] using hpar
        · have hcL : c ≠ L := Nat.ne_of_lt (getNode_lt hcn)
          refine ⟨cn, ?_, by rw [hpself]; exact hpar⟩
          rw [hdesc c, if_neg hcs, if_neg hcL]
          exact hcn
      · subst hcl
        refine ⟨⟨data, some self, []⟩, ?_, by simp [hpself]⟩
        rw [hdesc L]
        have hLs : L ≠ self := (Nat.ne_of_lt hslt).symm
        simp [hLs]
    · by_cases hpL : p = L
      · rw [if_neg hpself, if_pos hpL] at hp
        injection hp with hpn
        subst hpn
        simp at hc
      · rw [if_neg hpself, if_neg hpL] at hp
        rcases hI.backRef p pn hp c hc with ⟨cn, hcn, hpar⟩
        by_cases hcs : c = self
        · refine ⟨{ n with childNodes := n.childNodes ++ [L] }, ?_, ?_⟩
          · rw [hdesc c, if_pos hcs]
          · rw [hcs, hs] at hcn
            injection hcn with h
            subst h
            simpa using hpar
        · have hcL : c ≠ L := Nat.ne_of_lt (getNode_lt hcn)
          refine ⟨cn, ?_, hpar⟩
          rw [hdesc c, if_neg hcs, if_neg hcL]
          exact hcn
  case nodupCh =>
    intro p pn hp
    rw [hdesc p] at hp
    by_cases hpself : p = self
    · rw [if_pos hpself] at hp
      injection hp with hpn
      subst hpn
      have hLnot : L ∉ n.childNodes := by
        intro hmem
        exact absurd rfl (Nat.ne_of_lt (hI.child_lt hs hmem))
      have := (List.perm_append_singleton L n.childNodes).nodup_iff
      simp only [this]
      exact List.nodup_cons.mpr ⟨hLnot, hI.nodupCh self n hs⟩
    · by_cases hpL : p = L
      · rw [if_neg hpself, if_pos hpL] at hp
        injection hp with hpn
        subst hpn
        simp
      · rw [if_neg hpself, if_neg hpL] at hp
        exact hI.nodupCh p pn hp
  case crossUniq =>
    intro p pn q qn c hp hq hcp hcq
    rw [hdesc p] at hp
    rw [hdesc q] at hq
    by_cases hpself : p = self <;> by_cases hqself : q = self
    · rw [hpself, hqself]
    · rw [if_pos hpself] at hp
      by_cases hqL : q = L
      · rw [if_neg hqself, if_pos hqL] at hq
        injection hq with hqn
        subst hqn
        simp at hcq
      · rw [if_neg hqself, if_neg hqL] at hq
        injection hp with hpn
        subst hpn
        rcases (hmem_self c).mp hcp with hold | hcl
        · rw [hpself]
          exact hI.crossUniq self n q qn c hs hq hold hcq
        · subst hcl
          exact absurd rfl (Nat.ne_of_lt (hI.child_lt hq hcq))
    · rw [if_pos hqself] at hq
      by_cases hpL : p = L
      · rw [if_neg hpself, if_pos hpL] at hp
        injection hp with hpn
        subst hpn
        simp at hcp
      · rw [if_neg hpself, if_neg hpL] at hp
        injection hq with hqn
        subst hqn
        rcases (hmem_self c).mp hcq with hold | hcl
        · rw [hqself]
          exact hI.crossUniq p pn self n c hp hs hcp hold
        · subst hcl
          exact absurd rfl (Nat.ne_of_lt (hI.child_lt hp hcp))
    · by_cases hpL : p = L
      · rw [if_neg hpself, if_pos hpL] at hp
        injection hp with hpn
        subst hpn
        simp at hcp
      · by_cases hqL : q = L
        · rw [if_neg hqself, if_pos hqL] at hq
          injection hq with hqn
          subst hqn
          simp at hcq
        · rw [if_neg hpself, if_neg hpL] at hp
          rw [if_neg hqself, if_neg hqL] at hq
          exact hI.crossUniq p pn q qn c hp hq hcp hcq
  case detNotOwned =>
    intro c hc p pn hp
    rw [hdet] at hc
    rw [hdesc p] at hp
    by_cases hpself : p = self
    · rw [if_pos hpself] at hp
      injection hp with hpn
      subst hpn
      intro hmem
      rcases (hmem_self c).mp hmem with hold | hcl
      · exact hI.detNotOwned c hc self n hs hold
      · rcases Option.isSome_iff_exists.mp (hI.detAlloc c hc) with ⟨cn, hcn⟩
        rw [hcl] at hcn
        exact Nat.ne_of_lt (getNode_lt hcn) hL
    · by_cases hpL : p = L
      · rw [if_neg hpself, if_pos hpL] at hp
        injection hp with hpn
        subst hpn
        simp
      · rw [if_neg hpself, if_neg hpL] at hp
        exact hI.detNotOwned c hc p pn hp
  case detAlloc =>
    intro c hc
    rw [hdet] at hc
    rw [hdesc c]
    by_cases hcs : c = self
    · simp [hcs]
    · rcases Option.isSome_iff_exists.mp (hI.detAlloc c hc) with ⟨cn, hcn⟩
      have hcL : c ≠ L := Nat.ne_of_lt (getNode_lt hcn)
      simp [hcs, hcL, hcn]
  case detNodup =>
    rw [hdet]
    exact hI.detNodup
  case rootNotDet =>
    rw [hdet]
    exact hI.rootNotDet

theorem mem_of_getElem? {l : List Nat} {i a : Nat} (h : l[i]? = some a) :
    a ∈ l := by
  have hlt : i < l.length := by
    by_contra hge
    rw [List.getElem?_eq_none (Nat.le_of_not_lt hge)] at h
    exact Option.noConfusion h
  rw [List.getElem?_eq_getElem hlt] at h
  injection h with h
  exact h ▸ List.getElem_mem hlt

theorem storeInv_insertDet (st : OpState) (self pos child : Nat)
    (hI : StoreInv st) (hv : validOp st (.insertDet self pos child) = true) :
    StoreInv (runOp st (.insertDet self pos child)) := by
  simp only [validOp, Bool.and_eq_true, Option.isSome_iff_exists,
    decide_eq_true_eq] at hv
  rcases hv with ⟨⟨⟨⟨n, hs⟩, cn, hc⟩, hdet⟩, hpos⟩
  have hdetc : child ∈ st.detached := by simpa using hdet
  have hchild0 : child ≠ 0 := fun h => hI.rootNotDet (h ▸ hdetc)
  have hnotowned := hI.detNotOwned child hdetc
  set n1 : TreeNodeRec :=
    if self = child then { cn with parentNode := some self } else n with hn1
  set ns : TreeNodeRec := if self = child then cn else n with hns
  have hselfns : getNode st.tree self = some ns := by
    by_cases hsc : self = child
    · rw [hns, if_pos hsc, hsc, hc]
    · rw [hns, if_neg hsc, hs]
  have hnsch : ns.childNodes = n1.childNodes := by
    by_cases hsc : self = child
    · rw [hns, hn1, if_pos hsc, if_pos hsc]
    · rw [hns, hn1, if_neg hsc, if_neg hsc]
  have hnspar : self ≠ child → ns.parentNode = n1.parentNode := by
    intro hsc
    rw [hns, hn1, if_neg hsc, if_neg hsc]
  have hcset : getNode (setNode st.tree child { cn with parentNode := some self }) self =
      some n1 := by
    rw [getNode_setNode hc]
    by_cases hsc : self = child
    · rw [if_pos hsc, hn1, if_pos hsc]
    · rw [if_neg hsc, hs, hn1, if_neg hsc]
  have htree : (runOp st (.insertDet self pos child)).tree =
      setNode (setNode st.tree child { cn with parentNode := some self }) self
        { n1 with childNodes := n1.childNodes.insertIdx pos child } := by
    simp only [runOp]
    rw [insertChild_eq hc, hcset]
  have hdet' : (runOp st (.insertDet self pos child)).detached =
      st.detached.erase child := by
    simp [runOp]
  have hdesc : ∀ j, getNode (runOp st (.insertDet self pos child)).tree j =
      if j = self then some { n1 with childNodes := n1.childNodes.insertIdx pos child }
      else if j = child then some { cn with parentNode := some self }
      else getNode st.tree j := by
    intro j
    rw [htree, getNode_setNode hcset, getNode_setNode hc]
  have hpos' : pos ≤ n1.childNodes.length := by
    rw [← hnsch]
    have : childCount st.tree self = ns.childNodes.length := by
      simp [childCount, hselfns]
    omega
  have hmem_ins : ∀ x, x ∈ n1.childNodes.insertIdx pos child ↔
      x = child ∨ x ∈ n1.childNodes := fun _ => mem_insertIdx_iff hpos'
  constructor
  case rootEx =>
    rw [hdesc 0]
    by_cases h0s : 0 = self
    · rw [if_pos h0s]
      rfl
    · rw [if_neg h0s, if_neg (fun h => hchild0 h.symm)]
      exact hI.rootEx
  case rootPar =>
    intro rn hrn
    rw [hdesc 0] at hrn
    by_cases h0s : 0 = self
    · rw [if_pos h0s] at hrn
      injection hrn with h
      subst h
      have hsc : ¬(self = child) := by
        intro h
        exact hchild0 (h ▸ h0s.symm)
      simp only []
      rw [← hnspar hsc]
      exact hI.rootPar ns (h0s ▸ hselfns)
    · rw [if_neg h0s, if_neg (fun h => hchild0 h.symm)] at hrn
      exact hI.rootPar rn hrn
  case backRef =>
    intro p pn hp c hcmem
    rw [hdesc p] at hp
    by_cases hpself : p = self
    · rw [if_pos hpself] at hp
      injection hp with h
      subst h
      rcases (hmem_ins c).mp hcmem with hcc | hcold
      · subst hcc
        by_cases hcs : c = self
        · refine ⟨{ n1 with childNodes := n1.childNodes.insertIdx pos c }, ?_, ?_⟩
          · rw [hdesc c, if_pos hcs]
          · show n1.parentNode = some p
            rw [hn1, if_pos hcs.symm, hpself, ← hcs]
        · refine ⟨{ cn with parentNode := some self }, ?_, by
            show some self = some p
            rw [hpself]⟩
          rw [hdesc c, if_neg hcs, if_pos rfl]
      · have hcoldns : c ∈ ns.childNodes := by rw [hnsch]; exact hcold
        have hcchild : c ≠ child := by
          intro h
          exact hnotowned self ns hselfns (h ▸ hcoldns)
        rcases hI.backRef self ns hselfns c hcoldns with ⟨cnc, hcnc, hpar⟩
        by_cases hcs : c = self
        · have hsc : ¬(self = child) := fun hh => hcchild (hcs.trans hh)
          refine ⟨{ n1 with childNodes := n1.childNodes.insertIdx pos child }, ?_, ?_⟩
          · rw [hdesc c, if_pos hcs]
          · show n1.parentNode = some p
            rw [hcs, hselfns] at hcnc
            injection hcnc with h
            rw [← hnspar hsc, h, hpself]
            exact hpar
        · refine ⟨cnc, ?_, by rw [hpself]; exact hpar⟩
          rw [hdesc c, if_neg hcs, if_neg hcchild]
          exact hcnc
    · by_cases hpchild : p = child
      · rw [if_neg hpself, if_pos hpchild] at hp
        injection hp with h
        subst h
        have hcold : c ∈ cn.childNodes := hcmem
        rcases hI.backRef child cn hc c hcold with ⟨cnc, hcnc, hpar⟩
        have hcchild : c ≠ child := by
          intro h
          exact hnotowned child cn hc (h ▸ hcold)
        by_cases hcs : c = self
        · have hsc : ¬(self = child) := fun hh => hpself (hpchild ▸ hh ▸ rfl)
          refine ⟨{ n1 with childNodes := n1.childNodes.insertIdx pos child }, ?_, ?_⟩
          · rw [hdesc c, if_pos hcs]
          · show n1.parentNode = some p
            rw [hcs, hselfns] at hcnc
            injection hcnc with h
            rw [← hnspar hsc, h, hpchild]
            exact hpar
        · refine ⟨cnc, ?_, hpchild ▸ hpar⟩
          rw [hdesc c, if_neg hcs, if_neg hcchild]
          exact hcnc
      · rw [if_neg hpself, if_neg hpchild] at hp
        rcases hI.backRef p pn hp c hcmem with ⟨cnc, hcnc, hpar⟩
        have hcchild : c ≠ child := by
          intro h
          exact hnotowned p pn hp (h ▸ hcmem)
        by_cases hcs : c = self
        · have hsc : ¬(self = child) := fun hh => hcchild (hcs.trans hh)
          refine ⟨{ n1 with childNodes := n1.childNodes.insertIdx pos child }, ?_, ?_⟩
          · rw [hdesc c, if_pos hcs]
          · show n1.parentNode = some p
            rw [hcs, hselfns] at hcnc
            injection hcnc with h
            rw [← hnspar hsc, h]
            exact hpar
        · refine ⟨cnc, ?_, hpar⟩
          rw [hdesc c, if_neg hcs, if_neg hcchild]
          exact hcnc
  case nodupCh =>
    intro p pn hp
    rw [hdesc p] at hp
    by_cases hpself : p = self
    · rw [if_pos hpself] at hp
      injection hp with h
      subst h
      show (n1.childNodes.insertIdx pos child).Nodup
      refine nodup_insertIdx_of hpos' ?_ ?_
      · rw [← hnsch]
        exact hnotowned self ns hselfns
      · rw [← hnsch]
        exact hI.nodupCh self ns hselfns
    · by_cases hpchild : p = child
      · rw [if_neg hpself, if_pos hpchild] at hp
        injection hp with h
        subst h
        exact hI.nodupCh child cn hc
      · rw [if_neg hpself, if_neg hpchild] at hp
        exact hI.nodupCh p pn hp
  case crossUniq =>
    intro p pn q qn c hp hq hcp hcq
    rw [hdesc p] at hp
    rw [hdesc q] at hq
    have hmemold : ∀ r rn, (if r = self
          then some { n1 with childNodes := n1.childNodes.insertIdx pos child }
          else if r = child then some { cn with parentNode := some self }
          else getNode st.tree r) = some rn →
        ∀ x, x ∈ rn.childNodes → x ≠ child →
        ∃ rn0, getNode st.tree r = some rn0 ∧ x ∈ rn0.childNodes := by
      intro r rn hr x hx hxchild
      by_cases hrself : r = self
      · rw [if_pos hrself] at hr
        injection hr with h
        subst h
        rcases (hmem_ins x).mp hx with h | h
        · exact absurd h hxchild
        · exact ⟨ns, hrself ▸ hselfns, by rw [hnsch]; exact h⟩
      · by_cases hrchild : r = child
        · rw [if_neg hrself, if_pos hrchild] at hr
          injection hr with h
          subst h
          exact ⟨cn, hrchild ▸ hc, hx⟩
        · rw [if_neg hrself, if_neg hrchild] at hr
          exact ⟨rn, hr, hx⟩
    have hforce : ∀ r rn, (if r = self
          then some { n1 with childNodes := n1.childNodes.insertIdx pos child }
          else if r = child then some { cn with parentNode := some self }
          else getNode st.tree r) = some rn →
        child ∈ rn.childNodes → r = self := by
      intro r rn hr hmem
      by_cases hrself : r = self
      · exact hrself
      · exfalso
        by_cases hrchild : r = child
        · rw [if_neg hrself, if_pos hrchild] at hr
          injection hr with h
          subst h
          exact hnotowned child cn hc hmem
        · rw [if_neg hrself, if_neg hrchild] at hr
          exact hnotowned r rn hr hmem
    by_cases hcchild : c = child
    · subst hcchild
      rw [hforce p pn hp hcp, hforce q qn hq hcq]
    · rcases hmemold p pn hp c hcp hcchild with ⟨pn0, hp0, hmem0⟩
      rcases hmemold q qn hq c hcq hcchild with ⟨qn0, hq0, hmem0q⟩
      exact hI.crossUniq p pn0 q qn0 c hp0 hq0 hmem0 hmem0q
  case detNotOwned =>
    intro c hcdet p pn hp
    rw [hdet'] at hcdet
    have hcd := (hI.detNodup.mem_erase_iff).mp hcdet
    rw [hdesc p] at hp
    by_cases hpself : p = self
    · rw [if_pos hpself] at hp
      injection hp with h
      subst h
      intro hmem
      rcases (hmem_ins c).mp hmem with h | h
      · exact hcd.1 h
      · have : c ∈ ns.childNodes := by rw [hnsch]; exact h
        exact hI.detNotOwned c hcd.2 self ns hselfns this
    · by_cases hpchild : p = child
      · rw [if_neg hpself, if_pos hpchild] at hp
        injection hp with h
        subst h
        exact hI.detNotOwned c hcd.2 child cn (hpchild ▸ hc)
      · rw [if_neg hpself, if_neg hpchild] at hp
        exact hI.detNotOwned c hcd.2 p pn hp
  case detAlloc =>
    intro c hcdet
    rw [hdet'] at hcdet
    have hcd := (hI.detNodup.mem_erase_iff).mp hcdet
    rw [hdesc c]
    by_cases hcs : c = self
    · rw [if_pos hcs]
      rfl
    · by_cases hcc : c = child
      · rw [if_neg hcs, if_pos hcc]
        rfl
      · rw [if_neg hcs, if_neg hcc]
        exact hI.detAlloc c hcd.2
  case detNodup =>
    rw [hdet']
    exact hI.detNodup.erase child
  case rootNotDet =>
    rw [hdet']
    intro h
    exact hI.rootNotDet ((hI.detNodup.mem_erase_iff).mp h).2

theorem storeInv_takeOp (st : OpState) (self row : Nat)
    (hI : StoreInv st) (hv : validOp st (.takeOp self row) = true) :
    StoreInv (runOp st (.takeOp self row)) := by
  simp only [validOp, decide_eq_true_eq] at hv
  rcases hsg : getNode st.tree self with _ | n
  · exfalso
    rw [childCount, hsg] at hv
    simp at hv
  · have hrow : row < n.childNodes.length := by
      simpa [childCount, hsg] using hv
    have hc0 : n.childNodes[row]? = some n.childNodes[row] :=
      List.getElem?_eq_getElem hrow
    set c0 := n.childNodes[row] with hc0def
    have hc0mem : c0 ∈ n.childNodes := List.getElem_mem hrow
    have htk : takeChild st.tree self row =
        (setNode st.tree self { n with childNodes := n.childNodes.eraseIdx row },
          some c0) := by
      simp [takeChild, hsg, hc0]
    have htree : (runOp st (.takeOp self row)).tree =
        setNode st.tree self { n with childNodes := n.childNodes.eraseIdx row } := by
      simp [runOp, htk]
    have hdet' : (runOp st (.takeOp self row)).detached = c0 :: st.detached := by
      simp [runOp, htk]
    have hdesc : ∀ j, getNode (runOp st (.takeOp self row)).tree j =
        if j = self then some { n with childNodes := n.childNodes.eraseIdx row }
        else getNode st.tree j := by
      intro j
      rw [htree, getNode_setNode hsg]
    rcases hI.backRef self n hsg c0 hc0mem with ⟨c0n, hc0n, hc0par⟩
    have hc0root : c0 ≠ 0 := by
      intro h
      exact hI.root_not_owned hsg (h ▸ hc0mem)
    have hc0notdet : c0 ∉ st.detached := by
      intro h
      exact hI.detNotOwned c0 h self n hsg hc0mem
    have hsubmem : ∀ x, x ∈ n.childNodes.eraseIdx row → x ∈ n.childNodes :=
      fun _ h => List.mem_of_mem_eraseIdx h
    constructor
    case rootEx =>
      rw [hdesc 0]
      by_cases h0s : 0 = self
      · rw [if_pos h0s]
        rfl
      · rw [if_neg h0s]
        exact hI.rootEx
    case rootPar =>
      intro rn hrn
      rw [hdesc 0] at hrn
      by_cases h0s : 0 = self
      · rw [if_pos h0s] at hrn
        injection hrn with h
        subst h
        show n.parentNode = none
        exact hI.rootPar n (h0s ▸ hsg)
      · rw [if_neg h0s] at hrn
        exact hI.rootPar rn hrn
    case backRef =>
      intro p pn hp c hcmem
      rw [hdesc p] at hp
      by_cases hpself : p = self
      · rw [if_pos hpself] at hp
        injection hp with h
        subst h
        have hcold : c ∈ n.childNodes := hsubmem c hcmem
        rcases hI.backRef self n hsg c hcold with ⟨cnc, hcnc, hpar⟩
        by_cases hcs : c = self
        · refine ⟨{ n with childNodes := n.childNodes.eraseIdx row }, ?_, ?_⟩
          · rw [hdesc c, if_pos hcs]
          · show n.parentNode = some p
            rw [hcs, hsg] at hcnc
            injection hcnc with h
            rw [h, hpself]
            exact hpar
        · refine ⟨cnc, ?_, by rw [hpself]; exact hpar⟩
          rw [hdesc c, if_neg hcs]
          exact hcnc
      · rw [if_neg hpself] at hp
        rcases hI.backRef p pn hp c hcmem with ⟨cnc, hcnc, hpar⟩
        by_cases hcs : c = self
        · refine ⟨{ n with childNodes := n.childNodes.eraseIdx row }, ?_, ?_⟩
          · rw [hdesc c, if_pos hcs]
          · show n.parentNode = some p
            rw [hcs, hsg] at hcnc
            injection hcnc with h
            rw [h]
            exact hpar
        · refine ⟨cnc, ?_, hpar⟩
          rw [hdesc c, if_neg hcs]
          exact hcnc
    case nodupCh =>
      intro p pn hp
      rw [hdesc p] at hp
      by_cases hpself : p = self
      · rw [if_pos hpself] at hp
        injection hp with h
        subst h
        exact (List.eraseIdx_sublist n.childNodes row).nodup (hI.nodupCh self n hsg)
      · rw [if_neg hpself] at hp
        exact hI.nodupCh p pn hp
    case crossUniq =>
      intro p pn q qn c hp hq hcp hcq
      rw [hdesc p] at hp
      rw [hdesc q] at hq
      have hmemold : ∀ r rn, (if r = self
            then some { n with childNodes := n.childNodes.eraseIdx row }
            else getNode st.tree r) = some rn →
          ∀ x, x ∈ rn.childNodes →
          ∃ rn0, getNode st.tree r = some rn0 ∧ x ∈ rn0.childNodes := by
        intro r rn hr x hx
        by_cases hrself : r = self
        · rw [if_pos hrself] at hr
          injection hr with h
          subst h
          exact ⟨n, hrself ▸ hsg, hsubmem x hx⟩
        · rw [if_neg hrself] at hr
          exact ⟨rn, hr, hx⟩
      rcases hmemold p pn hp c hcp with ⟨pn0, hp0, hmem0⟩
      rcases hmemold q qn hq c hcq with ⟨qn0, hq0, hmem0q⟩
      exact hI.crossUniq p pn0 q qn0 c hp0 hq0 hmem0 hmem0q
    case detNotOwned =>
      intro c hcdet p pn hp
      rw [hdet'] at hcdet
      rw [hdesc p] at hp
      rcases List.mem_cons.mp hcdet with hcc0 | hcold
      · by_cases hpself : p = self
        · rw [if_pos hpself] at hp
          injection hp with h
          subst h
          rw [hcc0]
          exact not_mem_eraseIdx_of_nodup (hI.nodupCh self n hsg) hc0
        · rw [if_neg hpself] at hp
          intro hmem
          have hcm : c ∈ n.childNodes := by rw [hcc0]; exact hc0mem
          exact hpself (hI.crossUniq p pn self n c hp hsg hmem hcm)
      · by_cases hpself : p = self
        · rw [if_pos hpself] at hp
          injection hp with h
          subst h
          intro hmem
          exact hI.detNotOwned c hcold self n hsg (hsubmem c hmem)
        · rw [if_neg hpself] at hp
          exact hI.detNotOwned c hcold p pn hp
    case detAlloc =>
      intro c hcdet
      rw [hdet'] at hcdet
      rw [hdesc c]
      rcases List.mem_cons.mp hcdet with hcc0 | hcold
      · by_cases hcs : c = self
        · rw [if_pos hcs]
          rfl
        · rw [if_neg hcs, hcc0, hc0n]
          rfl
      · by_cases hcs : c = self
        · rw [if_pos hcs]
          rfl
        · rw [if_neg hcs]
          exact hI.detAlloc c hcold
    case detNodup =>
      rw [hdet']
      exact List.nodup_cons.mpr ⟨hc0notdet, hI.detNodup⟩
    case rootNotDet =>
      rw [hdet']
      intro h
      rcases List.mem_cons.mp h with h | h
      · exact hc0root h.symm
      · exact hI.rootNotDet h

theorem storeInv_runOp (st : OpState) (op : TreeOp) (hI : StoreInv st)
    (hv : validOp st op = true) (hd : disciplined op = true) :
    StoreInv (runOp st op) := by
  cases op with
  | newAppend self data cp =>
    have hcp : cp = some self := by
      simpa [disciplined] using hd
    subst hcp
    exact storeInv_newAppend st self data hI hv
  | insertDet self pos child => exact storeInv_insertDet st self pos child hI hv
  | takeOp self row => exact storeInv_takeOp st self row hI hv

theorem storeInv_runOps (ops : List TreeOp) (st : OpState) (hI : StoreInv st)
    (hv : validOps st ops = true) (hd : ops.all disciplined = true) :
    StoreInv (runOps st ops) := by
  induction ops generalizing st with
  | nil => exact hI
  | cons op ops ih =>
    simp only [validOps, Bool.and_eq_true] at hv
    simp only [List.all_cons, Bool.and_eq_true] at hd
    have hstep := storeInv_runOp st op hI hv.1 hd.1
    have : runOps st (op :: ops) = runOps (runOp st op) ops := by
      simp [runOps]
    rw [this]
    exact ih (runOp st op) hstep hv.2 hd.2

theorem storeInv_init (rootData : List String) : StoreInv (initState rootData) := by
  have hroot : getNode (initState rootData).tree 0 =
      some ⟨rootData, none, []⟩ := rfl
  have honly : ∀ p pn, getNode (initState rootData).tree p = some pn →
      p = 0 ∧ pn = ⟨rootData, none, []⟩ := by
    intro p pn hp
    have := getNode_lt hp
    simp only [initState, List.length_cons, List.length_nil] at this
    have hp0 : p = 0 := by omega
    subst hp0
    rw [hroot] at hp
    injection hp with h
    exact ⟨rfl, h.symm⟩
  constructor
  case rootEx => rw [hroot]; rfl
  case rootPar =>
    intro rn hrn
    rw [hroot] at hrn
    injection hrn with h
    rw [← h]
  case backRef =>
    intro p pn hp c hc
    rcases honly p pn hp with ⟨_, hpn⟩
    subst hpn
    simp at hc
  case nodupCh =>
    intro p pn hp
    rcases honly p pn hp with ⟨_, hpn⟩
    subst hpn
    simp
  case crossUniq =>
    intro p pn q qn c hp hq hcp _
    rcases honly p pn hp with ⟨hp0, hpn⟩
    subst hpn
    simp at hcp
  case detNotOwned =>
    intro c hc
    simp [initState] at hc
  case detAlloc =>
    intro c hc
    simp [initState] at hc
  case detNodup => simp [initState]
  case rootNotDet => simp [initState]

/-- C3 (amended): for every valid sequence of appendChild / insertChild /
takeChild operations in which each appended child is constructed with
the appending node as its parent (the discipline observed at
`appendChild`'s only call site), every owned child's parent
back-reference equals its owning node and the root keeps no parent. -/
theorem parent_backref_invariant (rootData : List String)
    (ops : List TreeOp)
    (hv : validOps (initState rootData) ops = true)
    (hd : ops.all disciplined = true) :
    (∀ p pn, getNode (runOps (initState rootData) ops).tree p = some pn →
      ∀ c ∈ pn.childNodes,
        ∃ cn, getNode (runOps (initState rootData) ops).tree c = some cn ∧
          cn.parentNode = some p) ∧
    (∃ rn, getNode (runOps (initState rootData) ops).tree 0 = some rn ∧
      rn.parentNode = none) := by
  have hI := storeInv_runOps ops (initState rootData) (storeInv_init rootData) hv hd
  refine ⟨hI.backRef, ?_⟩
  rcases Option.isSome_iff_exists.mp hI.rootEx with ⟨rn, hrn⟩
  exact ⟨rn, hrn, hI.rootPar rn hrn⟩

theorem parent_backref_invariant_witness :
    ∃ cn, getNode (runOps (initState ["Root"])
      [.newAppend 0 ["A"] (some 0), .newAppend 0 ["B"] (some 0),
        .takeOp 0 0, .insertDet 0 1 1]).tree 2 = some cn ∧
      cn.parentNode = some 0 := by
  have h := parent_backref_invariant ["Root"]
    [.newAppend 0 ["A"] (some 0), .newAppend 0 ["B"] (some 0),
      .takeOp 0 0, .insertDet 0 1 1] (by decide) (by decide)
  refine h.1 0 ?pn ?hp 2 ?hc
  case pn => exact ⟨["Root"], none, [2, 1]⟩
  case hp => decide
  case hc => decide

/-- C3, as stated, is refuted by the code: `TreeNode::appendChild` does
not update the appended child's parent back-reference, so appending a
node constructed with a null parent (a sequence the three operations
allow) yields a tree in which the root owns a child whose
`parentNode()` is null, not the root. -/
theorem parent_backref_counterexample :
    validOps (initState ["Root"]) [.newAppend 0 ["X"] none] = true ∧
    (∃ pn, getNode (runOps (initState ["Root"])
        [.newAppend 0 ["X"] none]).tree 0 = some pn ∧
      1 ∈ pn.childNodes ∧
      ¬ ∃ cn, getNode (runOps (initState ["Root"])
          [.newAppend 0 ["X"] none]).tree 1 = some cn ∧
        cn.parentNode = some 0) := by
  decide

/-! ## First-occurrence deduplication in the `mimeData` implementations (C10) -/

theorem mem_dedupFO (ks : List Nat) (k : Nat) : k ∈ dedupFO ks ↔ k ∈ ks := by
  induction ks with
  | nil => simp [dedupFO]
  | cons k0 ks ih =>
    simp only [dedupFO, List.mem_cons, List.mem_filter]
    constructor
    · rintro (h | ⟨h, _⟩)
      · exact Or.inl h
      · exact Or.inr (ih.mp h)
    · rintro (h | h)
      · exact Or.inl h
      · by_cases hk : k = k0
        · exact Or.inl hk
        · exact Or.inr ⟨ih.mpr h, by simpa using hk⟩

theorem dedupFO_nodup (ks : List Nat) : (dedupFO ks).Nodup := by
  induction ks with
  | nil => simp [dedupFO]
  | cons k0 ks ih =>
    simp only [dedupFO]
    refine List.nodup_cons.mpr ⟨?_, ih.filter _⟩
    intro hmem
    rcases List.mem_filter.mp hmem with ⟨_, hne⟩
    simp at hne

theorem keysFirst_go (ks : List Nat) (acc : List Nat) :
    ks.foldl (fun acc k => if acc.contains k then acc else acc ++ [k]) acc =
      acc ++ (dedupFO ks).filter (fun x => !(acc.contains x)) := by
  induction ks generalizing acc with
  | nil => simp [dedupFO]
  | cons k0 ks ih =>
    simp only [List.foldl_cons, dedupFO]
    by_cases hk : acc.contains k0 = true
    · rw [if_pos hk, ih acc]
      congr 1
      rw [List.filter_cons]
      simp only [hk, Bool.not_true, if_neg, Bool.false_eq_true,
        not_false_eq_true]
      rw [List.filter_filter]
      refine (List.filter_congr ?_).symm
      intro x _
      by_cases hx : x = k0
      · subst hx
        simp only [List.elem_eq_mem, decide_eq_true_eq] at hk
        simp [hk]
      · simp [hx]
    · rw [if_neg hk, ih (acc ++ [k0])]
      have hk0 : acc.contains k0 = false := by
        simpa using hk
      rw [List.filter_cons]
      simp only [hk0, Bool.not_false, if_pos]
      rw [List.append_assoc, List.singleton_append]
      congr 2
      rw [List.filter_filter]
      refine List.filter_congr ?_
      intro x _
      by_cases hx : x = k0
      · subst hx
        simp_all [List.elem_eq_mem]
      · simp [List.elem_eq_mem, List.mem_append, hx]

theorem keysFirst_eq_dedupFO (ks : List Nat) : keysFirst ks = dedupFO ks := by
  rw [keysFirst, keysFirst_go ks []]
  simp

/-- C10: each of the three `mimeData` implementations encodes each
distinct dragged node (or row) exactly once, in first-occurrence order:
the encoded key sequence is exactly the first-occurrence deduplication
of the incoming index list, it has no duplicates, it covers exactly the
dragged keys, and each dragged key appears exactly once; the two
content-serializing models stream the per-row payload in that order. -/
theorem mimeData_first_occurrence_dedup (appPid : Int)
    (ptrs rows crows : List Nat) (folder : EmailFolder)
    (cdata : List CountryData) :
    (treeMimeData appPid ptrs).nodePtrs = dedupFO ptrs ∧
    (dedupFO ptrs).Nodup ∧
    (∀ k, k ∈ dedupFO ptrs ↔ k ∈ ptrs) ∧
    (∀ k, k ∈ ptrs → (dedupFO ptrs).count k = 1) ∧
    emailsMimeData folder rows =
      (folder.folderName, (dedupFO rows).map (fun r => folder.emails.getD r "")) ∧
    countryMimeData cdata crows =
      (dedupFO crows).map (fun r => cdata.getD r ⟨"", 0⟩) := by
  refine ⟨?_, dedupFO_nodup ptrs, mem_dedupFO ptrs, ?_, ?_, ?_⟩
  · simp only [treeMimeData]
    exact keysFirst_eq_dedupFO ptrs
  · intro k hk
    have hle := List.nodup_iff_count_le_one.mp (dedupFO_nodup ptrs) k
    have hge := List.count_pos_iff.mpr ((mem_dedupFO ptrs k).mpr hk)
    omega
  · simp only [emailsMimeData, keysFirst_eq_dedupFO]
  · simp only [countryMimeData, keysFirst_eq_dedupFO]

theorem mimeData_first_occurrence_dedup_witness :
    (dedupFO [5, 3, 5, 2, 3]).count 5 = 1 ∧
    (treeMimeData 9 [5, 3, 5, 2, 3]).nodePtrs = dedupFO [5, 3, 5, 2, 3] := by
  have h := mimeData_first_occurrence_dedup 9 [5, 3, 5, 2, 3] [] []
    ⟨"Inbox", []⟩ []
  exact ⟨h.2.2.2.1 5 (by decide), h.1⟩

/-! ## Silent rejection leaves the state unchanged (C1) -/

/-- C1: in each of the four drop handlers (the tree model, the folders
model, the folders list widget, the folders table widget), a payload of
an unrecognized mime type (an empty decode stream), a payload carrying a
foreign process id, or a drop whose source folder equals the destination
folder makes `dropMimeData` report non-acceptance (`false`) and leave
the handler's state — every folder's email list, every tree node, the
drag-side widget items — unchanged. -/
theorem drop_rejection_no_state_change :
    (∀ (s : TreeState) (rootId : Nat) (appPid : Int) (mime : TreeMime)
        (row : Int) (parentIdx : Option Nat),
      mime.hasFormat = false ∨ mime.senderPid ≠ appPid →
      dropMimeDataT s rootId appPid mime row parentIdx = (s, false, [])) ∧
    (∀ (folders : List EmailFolder) (payload : Option EmailsPayload)
        (parentIdx : Option Nat),
      (payload = none ∨
        (∃ r destFolder pl, parentIdx = some r ∧
          folders[r]? = some destFolder ∧ payload = some pl ∧
          pl.sourceFolder = destFolder.folderName)) →
      foldersModelDrop folders payload parentIdx = (folders, false)) ∧
    (∀ (st : WidgetState) (appPid : Int) (destPtr : Nat)
        (payload : Option WidgetPayload) (isMove : Bool),
      (payload = none ∨ (∃ pl, payload = some pl ∧
        (pl.senderPid ≠ appPid ∨ pl.sourceFolderPtr = destPtr))) →
      foldersListWidgetDrop st appPid destPtr payload isMove = (st, false)) ∧
    (∀ (st : WidgetState) (appPid : Int) (destPtr : Nat)
        (payload : Option WidgetPayload) (isMove : Bool),
      (payload = none ∨ (∃ pl, payload = some pl ∧
        (pl.senderPid ≠ appPid ∨ pl.sourceFolderPtr = destPtr))) →
      foldersTableWidgetDrop st appPid destPtr payload isMove = (st, false)) := by
  refine ⟨?_, ?_, ?_, ?_⟩
  · rintro s rootId appPid mime row parentIdx (h | h)
    · simp [dropMimeDataT, h]
    · by_cases hf : mime.hasFormat = false
      · simp [dropMimeDataT, hf]
      · simp [dropMimeDataT, hf, h]
  · rintro folders payload parentIdx (h | ⟨r, destFolder, pl, hpi, hdf, hpl, hsame⟩)
    · subst h
      simp only [foldersModelDrop]
      cases parentIdx with
      | none => rfl
      | some r =>
        cases hdf : folders[r]? with
        | none => simp [hdf]
        | some d => simp [hdf]
    · subst hpi
      subst hpl
      simp [foldersModelDrop, hdf, hsame]
  · rintro st appPid destPtr payload isMove (h | ⟨pl, hpl, hrej⟩)
    · subst h
      rfl
    · subst hpl
      rcases hrej with h | h
      · simp [foldersListWidgetDrop, h]
      · by_cases hpid : pl.senderPid = appPid
        · simp [foldersListWidgetDrop, hpid, h]
        · simp [foldersListWidgetDrop, hpid]
  · rintro st appPid destPtr payload isMove (h | ⟨pl, hpl, hrej⟩)
    · subst h
      rfl
    · subst hpl
      rcases hrej with h | h
      · simp [foldersTableWidgetDrop, h]
      · by_cases hpid : pl.senderPid = appPid
        · simp [foldersTableWidgetDrop, hpid, h]
        · simp [foldersTableWidgetDrop, hpid]

theorem drop_rejection_no_state_change_witness :
    dropMimeDataT ⟨[⟨["T"], none, []⟩]⟩ 0 7 ⟨true, 8, [0]⟩ (-1) none =
      (⟨[⟨["T"], none, []⟩]⟩, false, []) ∧
    foldersModelDrop [⟨"Inbox", ["a"]⟩] (some ⟨"Inbox", ["x"]⟩) (some 0) =
      ([⟨"Inbox", ["a"]⟩], false) ∧
    foldersListWidgetDrop ⟨[⟨"Inbox", ["a"]⟩], [⟨3, "a"⟩]⟩ 7 0
      (some ⟨7, 0, [3]⟩) true = (⟨[⟨"Inbox", ["a"]⟩], [⟨3, "a"⟩]⟩, false) ∧
    foldersTableWidgetDrop ⟨[⟨"Inbox", ["a"]⟩], [⟨3, "a"⟩]⟩ 9 0
      (some ⟨8, 1, [3]⟩) true = (⟨[⟨"Inbox", ["a"]⟩], [⟨3, "a"⟩]⟩, false) := by
  refine ⟨?_, ?_, ?_, ?_⟩
  · exact drop_rejection_no_state_change.1 ⟨[⟨["T"], none, []⟩]⟩ 0 7
      ⟨true, 8, [0]⟩ (-1) none (by decide)
  · exact drop_rejection_no_state_change.2.1 [⟨"Inbox", ["a"]⟩]
      (some ⟨"Inbox", ["x"]⟩) (some 0)
      (Or.inr ⟨0, ⟨"Inbox", ["a"]⟩, ⟨"Inbox", ["x"]⟩, rfl, by decide, rfl, rfl⟩)
  · exact drop_rejection_no_state_change.2.2.1 ⟨[⟨"Inbox", ["a"]⟩], [⟨3, "a"⟩]⟩
      7 0 (some ⟨7, 0, [3]⟩) true (Or.inr ⟨⟨7, 0, [3]⟩, rfl, Or.inr rfl⟩)
  · exact drop_rejection_no_state_change.2.2.2 ⟨[⟨"Inbox", ["a"]⟩], [⟨3, "a"⟩]⟩
      9 0 (some ⟨8, 1, [3]⟩) true (Or.inr ⟨⟨8, 1, [3]⟩, rfl, Or.inl (by decide)⟩)

/-! ## Begin/end notification discipline (C8) -/

theorem foldl_traceStep_append (rootId : Nat) (evs1 evs2 : List ModelEvent)
    (h : evs1.foldl (traceStep rootId) (none, true) = (none, true)) :
    (evs1 ++ evs2).foldl (traceStep rootId) (none, true) =
      evs2.foldl (traceStep rootId) (none, true) := by
  rw [List.foldl_append, h]

theorem traceBlock_ins (rootId : Nat) (parentIdx : Option Nat) (r : Nat) :
    [ModelEvent.beginIns parentIdx (r : Int) (r : Int),
      ModelEvent.mutIns (nodeForIndexId rootId parentIdx) r,
      ModelEvent.endIns].foldl (traceStep rootId) (none, true) = (none, true) := by
  simp [traceStep]

theorem dropLoop_trace (rootId : Nat) (parentIdx : Option Nat)
    (ptrs : List Nat) :
    ∀ acc : TreeState × Nat × List ModelEvent,
      acc.2.2.foldl (traceStep rootId) (none, true) = (none, true) →
      ((ptrs.foldl (dropStep rootId parentIdx) acc).2.2).foldl
        (traceStep rootId) (none, true) = (none, true) := by
  induction ptrs with
  | nil => intro acc h; exact h
  | cons ptr ptrs ih =>
    rintro ⟨st, r, evs⟩ h
    rw [List.foldl_cons]
    refine ih _ ?_
    simp only [dropStep]
    rcases hcl : cloneNode (st.heap.length + 1) st ptr with ⟨st1, _ | cid⟩
    · exact h
    · simp only [insertChildT]
      rw [List.append_assoc, List.append_assoc,
        foldl_traceStep_append rootId evs _ h]
      exact traceBlock_ins rootId parentIdx r

theorem dropMimeDataT_trace_ok (s : TreeState) (rootId : Nat) (appPid : Int)
    (mime : TreeMime) (row : Int) (parentIdx : Option Nat) :
    checkTrace rootId (dropMimeDataT s rootId appPid mime row parentIdx).2.2 =
      true := by
  simp only [dropMimeDataT]
  split
  · simp [checkTrace]
  · split
    · simp [checkTrace]
    · rcases hres : mime.nodePtrs.foldl (dropStep rootId parentIdx)
        (s, dropRow s rootId row parentIdx, []) with ⟨sF, rF, evs⟩
      have htr : evs.foldl (traceStep rootId) (none, true) = (none, true) := by
        have h2 := dropLoop_trace rootId parentIdx mime.nodePtrs
          (s, dropRow s rootId row parentIdx, []) (by simp)
        rw [hres] at h2
        exact h2
      show checkTrace rootId evs = true
      simp only [checkTrace]
      rw [htr]
      rfl

theorem takeChildT_succeeds (s : TreeState) (p row : Nat)
    (h : row < childCount s p) :
    ∃ t c, takeChildT s p row = (t, some c, [.mutRem p row]) ∧
      childCount t p = childCount s p - 1 := by
  rcases hg : getNode s p with _ | n
  · rw [childCount, hg] at h
    simp at h
  · have hrow : row < n.childNodes.length := by
      rw [childCount, hg] at h
      exact h
    have hcel : n.childNodes[row]? = some n.childNodes[row] :=
      List.getElem?_eq_getElem hrow
    refine ⟨setNode s p { n with childNodes := n.childNodes.eraseIdx row },
      n.childNodes[row], ?_, ?_⟩
    · simp [takeChildT, takeChild, hg, hcel]
    · rw [childCount_setNode hg, if_pos rfl, List.length_eraseIdx]
      simp [hrow, childCount, hg]

theorem removeRows_loop (p row : Nat) (count : Nat) :
    ∀ (s : TreeState) (evs0 : List ModelEvent),
      row + count ≤ childCount s p →
      ∃ t, (List.range count).foldl
          (fun (acc : TreeState × List ModelEvent) _ =>
            match takeChildT acc.1 p row with
            | (t, _, ev) => (t, acc.2 ++ ev)) (s, evs0) =
        (t, evs0 ++ List.replicate count (.mutRem p row)) ∧
        childCount t p = childCount s p - count := by
  induction count with
  | zero =>
    intro s evs0 _
    exact ⟨s, by simp, by simp⟩
  | succ n ih =>
    intro s evs0 hcount
    rcases ih s evs0 (by omega) with ⟨t, hfold, hc⟩
    have hlt : row < childCount t p := by omega
    rcases takeChildT_succeeds t p row hlt with ⟨t', c, htk, hc'⟩
    refine ⟨t', ?_, by omega⟩
    rw [List.range_succ, List.foldl_append, hfold]
    simp only [List.foldl_cons, List.foldl_nil, htk]
    rw [List.replicate_succ']
    simp [List.append_assoc]

theorem traceRem_inner (rootId : Nat) (pidx : Option Nat) (row count : Nat) :
    ∀ (m j : Nat), j + m = count →
      ((List.replicate m (ModelEvent.mutRem (nodeForIndexId rootId pidx) row)) ++
        [ModelEvent.endRem]).foldl (traceStep rootId)
        (some ⟨false, pidx, (row : Int), (row : Int) + (count : Int) - 1, j⟩, true) =
      (none, true) := by
  intro m
  induction m with
  | zero =>
    intro j hj
    simp only [List.replicate, List.nil_append, List.foldl_cons, List.foldl_nil,
      traceStep]
    have : ((row : Int) + (j : Int) = (row : Int) + (count : Int) - 1 + 1) := by
      omega
    simp [this]
  | succ m ih =>
    intro j hj
    rw [List.replicate_succ]
    simp only [List.cons_append, List.foldl_cons, traceStep]
    have h2 : ((row : Int) + (j : Int) ≤ (row : Int) + (count : Int) - 1) := by
      omega
    have h3 := ih (j + 1) (by omega)
    simp only [Nat.cast_add, Nat.cast_one] at h3
    simp [h2]
    simpa using h3

theorem traceRem_ok (rootId : Nat) (pidx : Option Nat) (row count : Nat) :
    ([ModelEvent.beginRem pidx (row : Int) ((row : Int) + (count : Int) - 1)] ++
      (List.replicate count (ModelEvent.mutRem (nodeForIndexId rootId pidx) row)) ++
      [ModelEvent.endRem]).foldl (traceStep rootId) (none, true) =
    (none, true) := by
  rw [List.append_assoc, List.singleton_append, List.foldl_cons]
  have h0 : traceStep rootId (none, true)
      (.beginRem pidx (row : Int) ((row : Int) + (count : Int) - 1)) =
      (some ⟨false, pidx, (row : Int), (row : Int) + (count : Int) - 1, 0⟩, true) := rfl
  rw [h0]
  exact traceRem_inner rootId pidx row count count 0 (by omega)

theorem removeRowsT_trace_ok (s : TreeState) (rootId : Nat) (row count : Nat)
    (parentIdx : Option Nat)
    (h : row + count ≤ childCount s (nodeForIndexId rootId parentIdx)) :
    checkTrace rootId (removeRowsT s rootId row count parentIdx).2.2 = true := by
  simp only [removeRowsT]
  rcases removeRows_loop (nodeForIndexId rootId parentIdx) row count s [] h with
    ⟨t, hfold, _⟩
  simp only [checkTrace]
  rw [hfold]
  simp only [List.nil_append]
  rw [traceRem_ok rootId parentIdx row count]
  rfl

theorem resolve_indexForItem (rootId p : Nat) :
    nodeForIndexId rootId (indexForItemId rootId p) = p := by
  by_cases h : p = rootId
  · simp [indexForItemId, nodeForIndexId, h]
  · simp [indexForItemId, nodeForIndexId, h]

theorem removeNodeT_trace_ok (s : TreeState) (rootId : Nat) (node p : Nat)
    (pn : TreeNodeRec) (hpar : parentOf s node = some p)
    (hp : getNode s p = some pn) (hmem : node ∈ pn.childNodes) :
    checkTrace rootId (removeNodeT s rootId node).2.2 = true := by
  have hnode : ∃ n, getNode s node = some n ∧ n.parentNode = some p := by
    rcases hg : getNode s node with _ | n
    · rw [parentOf, hg] at hpar
      exact Option.noConfusion hpar
    · rw [parentOf, hg] at hpar
      exact ⟨n, rfl, hpar⟩
  rcases hnode with ⟨n, hn, hnp⟩
  rcases findIndex_some_of_mem hmem with ⟨i, hfi, hget⟩
  have hilt : i < pn.childNodes.length := by
    by_contra hge
    rw [List.getElem?_eq_none (Nat.le_of_not_lt hge)] at hget
    exact Option.noConfusion hget
  have hrow : rowOf s node = (i : Int) := by
    simp [rowOf, hn, hnp, hp, hfi]
  have hcnt : i < childCount s p := by
    rw [childCount, hp]
    exact hilt
  rcases takeChildT_succeeds s p i hcnt with ⟨t, c, htk, _⟩
  simp only [removeNodeT, hpar, hrow]
  have htoNat : ((i : Int)).toNat = i := by simp
  rw [htoNat, htk]
  simp only [checkTrace]
  have hres := resolve_indexForItem rootId p
  have hblock := traceRem_ok rootId (indexForItemId rootId p) i 1
  rw [hres] at hblock
  have hshape :
      ([ModelEvent.beginRem (indexForItemId rootId p) ((i : Int)) ((i : Int))] ++
        [ModelEvent.mutRem p i] ++ [ModelEvent.endRem]) =
      ([ModelEvent.beginRem (indexForItemId rootId p) ((i : Int))
          ((i : Int) + ((1 : Nat) : Int) - 1)] ++
        (List.replicate 1 (ModelEvent.mutRem p i)) ++ [ModelEvent.endRem]) := by
    have : ((i : Int)) = (i : Int) + ((1 : Nat) : Int) - 1 := by omega
    rw [← this]
    rfl
  rw [hshape, hblock]
  rfl

/-- C8: every structural mutation of the tree model — each clone
insertion of `dropMimeData`, the removals of `removeRows` and of
`removeNode` — happens strictly inside a begin/end notification pair
whose announced parent resolves to the mutated node and whose announced
row range is exactly the range the mutations realise, and the traces
contain no mutation outside such a pair. -/
theorem model_mutations_bracketed :
    (∀ (s : TreeState) (rootId : Nat) (appPid : Int) (mime : TreeMime)
        (row : Int) (parentIdx : Option Nat),
      checkTrace rootId (dropMimeDataT s rootId appPid mime row parentIdx).2.2 =
        true) ∧
    (∀ (s : TreeState) (rootId : Nat) (row count : Nat)
        (parentIdx : Option Nat),
      row + count ≤ childCount s (nodeForIndexId rootId parentIdx) →
      checkTrace rootId (removeRowsT s rootId row count parentIdx).2.2 = true) ∧
    (∀ (s : TreeState) (rootId node p : Nat) (pn : TreeNodeRec),
      parentOf s node = some p → getNode s p = some pn →
      node ∈ pn.childNodes →
      checkTrace rootId (removeNodeT s rootId node).2.2 = true) := by
  exact ⟨dropMimeDataT_trace_ok, removeRowsT_trace_ok,
    fun s rootId node p pn h1 h2 h3 =>
      removeNodeT_trace_ok s rootId node p pn h1 h2 h3⟩

theorem model_mutations_bracketed_witness :
    checkTrace 0 (dropMimeDataT ⟨[⟨["T"], none, [1]⟩, ⟨["a"], some 0, []⟩]⟩ 0
      7 ⟨true, 7, [1]⟩ (-1) none).2.2 = true ∧
    checkTrace 0 (removeRowsT ⟨[⟨["T"], none, [1]⟩, ⟨["a"], some 0, []⟩]⟩ 0
      0 1 none).2.2 = true ∧
    checkTrace 0 (removeNodeT ⟨[⟨["T"], none, [1]⟩, ⟨["a"], some 0, []⟩]⟩ 0
      1).2.2 = true := by
  refine ⟨model_mutations_bracketed.1 _ 0 7 ⟨true, 7, [1]⟩ (-1) none, ?_, ?_⟩
  · exact model_mutations_bracketed.2.1 _ 0 0 1 none (by decide)
  · exact model_mutations_bracketed.2.2 _ 0 1 0 ⟨["T"], none, [1]⟩
      (by decide) (by decide) (by decide)

/-! ## Subtree traversal, comparison and clone lemmas (C2, C7) -/

theorem getNode_isSome_iff {s : TreeState} {i : Nat} :
    (getNode s i).isSome ↔ i < s.heap.length := by
  constructor
  · intro h
    rcases Option.isSome_iff_exists.mp h with ⟨n, hn⟩
    exact getNode_lt hn
  · intro h
    rw [getNode, List.getElem?_eq_getElem h]
    rfl

theorem shadowAt_some {s s' : TreeState} {i : Nat} {n : TreeNodeRec}
    (h : shadowAt s' i = shadowAt s i) (hg : getNode s i = some n) :
    ∃ n', getNode s' i = some n' ∧ n'.itemData = n.itemData ∧
      n'.childNodes = n.childNodes := by
  rw [shadowAt, shadowAt, hg] at h
  rcases hg' : getNode s' i with _ | n'
  · rw [hg'] at h
    simp at h
  · rw [hg'] at h
    simp only [Option.map_some'] at h
    injection h with h
    exact ⟨n', rfl, congrArg Prod.fst h, congrArg Prod.snd h⟩

theorem shadowAt_eq_of_getNode_eq {s s' : TreeState} {i : Nat}
    (h : getNode s' i = getNode s i) : shadowAt s' i = shadowAt s i := by
  rw [shadowAt, shadowAt, h]

theorem subtreeIn_mono_fuel :
    ∀ (fuel : Nat) {fuel' : Nat}, fuel ≤ fuel' →
      ∀ {s : TreeState} {a : Nat} {P : Nat → Bool},
        subtreeIn fuel s a P = true → subtreeIn fuel' s a P = true := by
  intro fuel
  induction fuel with
  | zero =>
    intro fuel' _ s a P h
    simp [subtreeIn] at h
  | succ fuel ih =>
    intro fuel' hle s a P h
    rcases fuel' with _ | fuel2
    · omega
    · simp only [subtreeIn] at h ⊢
      rcases hg : getNode s a with _ | n
      · rw [hg] at h
        simp at h
      · rw [hg] at h
        simp only [Bool.and_eq_true, List.all_eq_true] at h ⊢
        exact ⟨h.1, fun c hc => ih (by omega) (h.2 c hc)⟩

theorem subtreeIn_mono_P :
    ∀ (fuel : Nat) {s : TreeState} {a : Nat} {P Q : Nat → Bool},
      (∀ i, P i = true → Q i = true) →
      subtreeIn fuel s a P = true → subtreeIn fuel s a Q = true := by
  intro fuel
  induction fuel with
  | zero =>
    intro s a P Q _ h
    simp [subtreeIn] at h
  | succ fuel ih =>
    intro s a P Q hPQ h
    simp only [subtreeIn] at h ⊢
    rcases hg : getNode s a with _ | n
    · rw [hg] at h
      simp at h
    · rw [hg] at h
      simp only [Bool.and_eq_true, List.all_eq_true] at h ⊢
      exact ⟨hPQ a h.1, fun c hc => ih hPQ (h.2 c hc)⟩

theorem subtreeIn_head {fuel : Nat} {s : TreeState} {a : Nat} {P : Nat → Bool}
    (h : subtreeIn fuel s a P = true) :
    P a = true ∧ ∃ n, getNode s a = some n := by
  rcases fuel with _ | fuel
  · simp [subtreeIn] at h
  · simp only [subtreeIn] at h
    rcases hg : getNode s a with _ | n
    · rw [hg] at h
      simp at h
    · rw [hg] at h
      simp only [Bool.and_eq_true] at h
      exact ⟨h.1, n, rfl⟩

theorem subtreeIn_children {fuel : Nat} {s : TreeState} {a : Nat}
    {P : Nat → Bool} {n : TreeNodeRec}
    (h : subtreeIn (fuel + 1) s a P = true) (hg : getNode s a = some n) :
    ∀ c ∈ n.childNodes, subtreeIn fuel s c P = true := by
  simp only [subtreeIn] at h
  rw [hg] at h
  simp only [Bool.and_eq_true, List.all_eq_true] at h
  exact h.2

theorem subtreeIn_build {fuel : Nat} {s : TreeState} {a : Nat}
    {P : Nat → Bool} {n : TreeNodeRec} (hg : getNode s a = some n)
    (hPa : P a = true)
    (hch : ∀ c ∈ n.childNodes, subtreeIn fuel s c P = true) :
    subtreeIn (fuel + 1) s a P = true := by
  simp only [subtreeIn]
  rw [hg]
  simp only [Bool.and_eq_true, List.all_eq_true]
  exact ⟨hPa, hch⟩

theorem subtreeIn_stable :
    ∀ (fuel : Nat) {s s' : TreeState} {a : Nat} {P : Nat → Bool},
      subtreeIn fuel s a P = true →
      (∀ i, P i = true → shadowAt s' i = shadowAt s i) →
      subtreeIn fuel s' a P = true := by
  intro fuel
  induction fuel with
  | zero =>
    intro s s' a P h _
    simp [subtreeIn] at h
  | succ fuel ih =>
    intro s s' a P h hag
    simp only [subtreeIn] at h ⊢
    rcases hg : getNode s a with _ | n
    · rw [hg] at h
      simp at h
    · rw [hg] at h
      simp only [Bool.and_eq_true, List.all_eq_true] at h
      rcases shadowAt_some (hag a h.1) hg with ⟨n', hg', _, hch⟩
      rw [hg']
      simp only [Bool.and_eq_true, List.all_eq_true]
      refine ⟨h.1, fun c hc => ih (h.2 c ?_) hag⟩
      rw [← hch]
      exact hc

theorem subtreeEqB_congrL :
    ∀ (fuel : Nat) {sa sa' sb : TreeState} {a b : Nat} {P : Nat → Bool},
      subtreeIn fuel sa a P = true →
      (∀ i, P i = true → shadowAt sa' i = shadowAt sa i) →
      subtreeEqB fuel sa a sb b = true →
      subtreeEqB fuel sa' a sb b = true := by
  intro fuel
  induction fuel with
  | zero =>
    intro sa sa' sb a b P hin _ _
    simp [subtreeIn] at hin
  | succ fuel ih =>
    intro sa sa' sb a b P hin hag heq
    simp only [subtreeIn] at hin
    simp only [subtreeEqB] at heq ⊢
    rcases hga : getNode sa a with _ | na
    · rw [hga] at hin
      simp at hin
    · rw [hga] at hin heq
      rcases hgb : getNode sb b with _ | nb
      · rw [hgb] at heq
        simp at heq
      · rw [hgb] at heq
        simp only [Bool.and_eq_true, List.all_eq_true, decide_eq_true_eq] at hin heq
        rcases shadowAt_some (hag a hin.1) hga with ⟨na', hga', hid, hch⟩
        rw [hga']
        simp only [Bool.and_eq_true, List.all_eq_true, decide_eq_true_eq]
        refine ⟨⟨hid.trans heq.1.1, ?_⟩, ?_⟩
        · rw [hch]
          exact heq.1.2
        · intro pr hpr
          rw [hch] at hpr
          have hmem := List.of_mem_zip hpr
          exact ih (hin.2 pr.1 hmem.1) hag (heq.2 pr hpr)

theorem subtreeEqB_congrR :
    ∀ (fuel : Nat) {sa sb sb' : TreeState} {a b : Nat} {P : Nat → Bool},
      subtreeIn fuel sb b P = true →
      (∀ i, P i = true → shadowAt sb' i = shadowAt sb i) →
      subtreeEqB fuel sa a sb b = true →
      subtreeEqB fuel sa a sb' b = true := by
  intro fuel
  induction fuel with
  | zero =>
    intro sa sb sb' a b P hin _ _
    simp [subtreeIn] at hin
  | succ fuel ih =>
    intro sa sb sb' a b P hin hag heq
    simp only [subtreeIn] at hin
    simp only [subtreeEqB] at heq ⊢
    rcases hgb : getNode sb b with _ | nb
    · rw [hgb] at hin
      simp at hin
    · rw [hgb] at hin heq
      rcases hga : getNode sa a with _ | na
      · rw [hga] at heq
        simp at heq
      · rw [hga] at heq
        simp only [Bool.and_eq_true, List.all_eq_true, decide_eq_true_eq] at hin heq
        rcases shadowAt_some (hag b hin.1) hgb with ⟨nb', hgb', hid, hch⟩
        rw [hgb']
        simp only [Bool.and_eq_true, List.all_eq_true, decide_eq_true_eq]
        refine ⟨⟨heq.1.1.trans hid.symm, ?_⟩, ?_⟩
        · rw [hch]
          exact heq.1.2
        · intro pr hpr
          rw [hch] at hpr
          have hmem := List.of_mem_zip hpr
          exact ih (hin.2 pr.2 hmem.2) hag (heq.2 pr hpr)

theorem subtreeEqB_fuel_down :
    ∀ (F : Nat) {f : Nat}, F ≤ f →
      ∀ {sa sb : TreeState} {a b : Nat} {P : Nat → Bool},
        subtreeIn F sa a P = true → subtreeEqB f sa a sb b = true →
        subtreeEqB F sa a sb b = true := by
  intro F
  induction F with
  | zero =>
    intro f _ sa sb a b P hin _
    simp [subtreeIn] at hin
  | succ F ih =>
    intro f hle sa sb a b P hin heq
    rcases f with _ | f2
    · omega
    · simp only [subtreeIn] at hin
      simp only [subtreeEqB] at heq ⊢
      rcases hga : getNode sa a with _ | na
      · rw [hga] at hin
        simp at hin
      · rw [hga] at hin heq
        rcases hgb : getNode sb b with _ | nb
        · rw [hgb] at heq
          simp at heq
        · rw [hgb] at heq
          simp only [Bool.and_eq_true, List.all_eq_true, decide_eq_true_eq]
            at hin heq ⊢
          refine ⟨heq.1, ?_⟩
          intro pr hpr
          have hmem := List.of_mem_zip hpr
          exact ih (by omega) (hin.2 pr.1 hmem.1) (heq.2 pr hpr)

theorem length_attachClone (s : TreeState) (par cc : Nat) :
    (attachClone s par cc).heap.length = s.heap.length := by
  simp only [attachClone]
  repeat' split
  all_goals simp [length_setNode]

theorem getNode_attachClone {s : TreeState} {par cc : Nat} (j : Nat)
    (hj1 : j ≠ par) (hj2 : j ≠ cc) :
    getNode (attachClone s par cc) j = getNode s j := by
  simp only [attachClone]
  rcases hcc : getNode s cc with _ | cn
  · rcases hpar : getNode s par with _ | pn
    · rfl
    · rw [getNode_setNode hpar]
      simp [hj1]
  · have h1 := getNode_setNode hcc { cn with parentNode := some par }
    rcases hpar : getNode (setNode s cc { cn with parentNode := some par }) par
      with _ | pn
    · rw [h1 j]
      simp [hj2]
    · rw [getNode_setNode hpar, if_neg hj1, h1 j]
      simp [hj2]

theorem getNode_attachClone_par {s : TreeState} {par cc : Nat}
    (hne : par ≠ cc) {pn : TreeNodeRec} (hp : getNode s par = some pn) :
    getNode (attachClone s par cc) par =
      some { pn with childNodes := pn.childNodes ++ [cc] } := by
  simp only [attachClone]
  rcases hcc : getNode s cc with _ | cn
  · rw [hp, getNode_setNode hp]
    simp
  · have h1 := getNode_setNode hcc { cn with parentNode := some par }
    have hp1 : getNode (setNode s cc { cn with parentNode := some par }) par =
        some pn := by
      rw [h1 par, if_neg hne, hp]
    rw [hp1, getNode_setNode hp1]
    simp

theorem getNode_attachClone_cc {s : TreeState} {par cc : Nat}
    (hne : par ≠ cc) {cn : TreeNodeRec} (hcc : getNode s cc = some cn) :
    getNode (attachClone s par cc) cc =
      some { cn with parentNode := some par } := by
  simp only [attachClone]
  rw [hcc]
  have h1 := getNode_setNode hcc { cn with parentNode := some par }
  rcases hpar : getNode (setNode s cc { cn with parentNode := some par }) par
    with _ | pn
  · rw [h1 cc]
    simp
  · rw [getNode_setNode hpar, if_neg (fun h => hne h.symm), h1 cc]
    simp

theorem clone_frame :
    ∀ (fuel : Nat),
      (∀ (s : TreeState) (id : Nat) (s' : TreeState) (r : Option Nat),
        cloneNode fuel s id = (s', r) →
        s.heap.length ≤ s'.heap.length ∧
        (∀ i, i < s.heap.length → getNode s' i = getNode s i) ∧
        (∀ cid, r = some cid → cid = s.heap.length)) ∧
      (∀ (cs : List Nat) (s : TreeState) (par : Nat) (s' : TreeState) (b : Bool),
        cloneKids fuel s cs par = (s', b) →
        s.heap.length ≤ s'.heap.length ∧
        (∀ i, i < s.heap.length → i ≠ par → getNode s' i = getNode s i)) := by
  intro fuel
  induction fuel with
  | zero =>
    have hnode : ∀ (s : TreeState) (id : Nat) (s' : TreeState) (r : Option Nat),
        cloneNode 0 s id = (s', r) →
        s.heap.length ≤ s'.heap.length ∧
        (∀ i, i < s.heap.length → getNode s' i = getNode s i) ∧
        (∀ cid, r = some cid → cid = s.heap.length) := by
      intro s id s' r h
      simp only [cloneNode, Prod.mk.injEq] at h
      rcases h with ⟨hs, hr⟩
      subst hs
      subst hr
      exact ⟨Nat.le_refl _, fun i _ => rfl, fun cid h => Option.noConfusion h⟩
    refine ⟨hnode, ?_⟩
    intro cs
    induction cs with
    | nil =>
      intro s par s' b h
      simp only [cloneKids, Prod.mk.injEq] at h
      rcases h with ⟨hs, _⟩
      subst hs
      exact ⟨Nat.le_refl _, fun i _ _ => rfl⟩
    | cons c cs ihc =>
      intro s par s' b h
      rw [cloneKids] at h
      rcases hcl : cloneNode 0 s c with ⟨s1, rc⟩
      rw [hcl] at h
      have hframe := hnode s c s1 rc hcl
      cases rc with
      | none =>
        simp only [Prod.mk.injEq] at h
        rcases h with ⟨hs, _⟩
        subst hs
        exact ⟨hframe.1, fun i hi _ => hframe.2.1 i hi⟩
      | some cc =>
        simp only at h
        have hcc := hframe.2.2 cc rfl
        have hfr2 := ihc (attachClone s1 par cc) par s' b h
        have hlen2 : (attachClone s1 par cc).heap.length = s1.heap.length :=
          length_attachClone s1 par cc
        refine ⟨by omega, ?_⟩
        intro i hi hip
        have hicc : i ≠ cc := by omega
        rw [hfr2.2 i (by omega) hip, getNode_attachClone i hip hicc,
          hframe.2.1 i hi]
  | succ fuel ih =>
    have hnode : ∀ (s : TreeState) (id : Nat) (s' : TreeState) (r : Option Nat),
        cloneNode (fuel + 1) s id = (s', r) →
        s.heap.length ≤ s'.heap.length ∧
        (∀ i, i < s.heap.length → getNode s' i = getNode s i) ∧
        (∀ cid, r = some cid → cid = s.heap.length) := by
      intro s id s' r h
      rw [cloneNode] at h
      rcases hg : getNode s id with _ | n
      · rw [hg] at h
        simp only [Prod.mk.injEq] at h
        rcases h with ⟨hs, hr⟩
        subst hs
        subst hr
        exact ⟨Nat.le_refl _, fun i _ => rfl, fun cid h => Option.noConfusion h⟩
      · rw [hg] at h
        simp only [allocNode] at h
        rcases hk : cloneKids fuel ⟨s.heap ++ [⟨n.itemData, none, []⟩]⟩
          n.childNodes s.heap.length with ⟨s2, b⟩
        rw [hk] at h
        have hfr := ih.2 n.childNodes _ _ _ _ hk
        have hlen1 : (⟨s.heap ++ [⟨n.itemData, none, []⟩]⟩ :
            TreeState).heap.length = s.heap.length + 1 := by
          simp
        have halloc : ∀ i, i < s.heap.length →
            getNode (⟨s.heap ++ [⟨n.itemData, none, []⟩]⟩ : TreeState) i =
              getNode s i := by
          intro i hi
          have := getNode_allocNode s n.itemData none i
          simp only [allocNode] at this
          rw [this, if_neg (Nat.ne_of_lt hi)]
        have hagree : ∀ i, i < s.heap.length → getNode s2 i = getNode s i := by
          intro i hi
          rw [hfr.2 i (by omega) (by omega), halloc i hi]
        cases b with
        | true =>
          simp only [Prod.mk.injEq] at h
          rcases h with ⟨hs, hr⟩
          subst hs
          exact ⟨by omega, hagree, fun cid hc => by
            rw [← hr] at hc
            injection hc with hc
            exact hc.symm⟩
        | false =>
          simp only [Prod.mk.injEq] at h
          rcases h with ⟨hs, hr⟩
          subst hs
          subst hr
          exact ⟨by omega, hagree, fun cid h => Option.noConfusion h⟩
    refine ⟨hnode, ?_⟩
    intro cs
    induction cs with
    | nil =>
      intro s par s' b h
      simp only [cloneKids, Prod.mk.injEq] at h
      rcases h with ⟨hs, _⟩
      subst hs
      exact ⟨Nat.le_refl _, fun i _ _ => rfl⟩
    | cons c cs ihc =>
      intro s par s' b h
      rw [cloneKids] at h
      rcases hcl : cloneNode (fuel + 1) s c with ⟨s1, rc⟩
      rw [hcl] at h
      have hframe := hnode s c s1 rc hcl
      cases rc with
      | none =>
        simp only [Prod.mk.injEq] at h
        rcases h with ⟨hs, _⟩
        subst hs
        exact ⟨hframe.1, fun i hi _ => hframe.2.1 i hi⟩
      | some cc =>
        simp only at h
        have hcc := hframe.2.2 cc rfl
        have hfr2 := ihc (attachClone s1 par cc) par s' b h
        have hlen2 : (attachClone s1 par cc).heap.length = s1.heap.length :=
          length_attachClone s1 par cc
        refine ⟨by omega, ?_⟩
        intro i hi hip
        have hicc : i ≠ cc := by omega
        rw [hfr2.2 i (by omega) hip, getNode_attachClone i hip hicc,
          hframe.2.1 i hi]

theorem shadow_agree_chain {s s1 s2 : TreeState} {P : Nat → Bool}
    (h1 : ∀ i, P i = true → shadowAt s1 i = shadowAt s i)
    (h2 : ∀ i, P i = true → shadowAt s2 i = shadowAt s1 i) :
    ∀ i, P i = true → shadowAt s2 i = shadowAt s i := by
  intro i hp
  rw [h2 i hp, h1 i hp]

theorem clone_ok :
    ∀ (fuel : Nat),
      (∀ (s : TreeState) (id : Nat) (B : Nat) (P : Nat → Bool),
        (∀ i, P i = true → i < B) → B ≤ s.heap.length →
        subtreeIn fuel s id P = true →
        ∃ s' cid, cloneNode fuel s id = (s', some cid)) ∧
      (∀ (cs : List Nat) (s : TreeState) (par : Nat) (B : Nat) (P : Nat → Bool),
        (∀ i, P i = true → i < B) → B ≤ s.heap.length → B ≤ par →
        (∀ c ∈ cs, subtreeIn fuel s c P = true) →
        ∃ s', cloneKids fuel s cs par = (s', true)) := by
  intro fuel
  induction fuel with
  | zero =>
    refine ⟨?_, ?_⟩
    · intro s id B P _ _ hin
      simp [subtreeIn] at hin
    · intro cs s par B P _ _ _ hall
      cases cs with
      | nil => exact ⟨s, by simp [cloneKids]⟩
      | cons c cs =>
        have := hall c (List.mem_cons_self c cs)
        simp [subtreeIn] at this
  | succ fuel ih =>
    have hnode : ∀ (s : TreeState) (id : Nat) (B : Nat) (P : Nat → Bool),
        (∀ i, P i = true → i < B) → B ≤ s.heap.length →
        subtreeIn (fuel + 1) s id P = true →
        ∃ s' cid, cloneNode (fuel + 1) s id = (s', some cid) := by
      intro s id B P hPB hBs hin
      rcases subtreeIn_head hin with ⟨hPid, n, hg⟩
      have hch := subtreeIn_children hin hg
      have hch1 : ∀ c ∈ n.childNodes,
          subtreeIn fuel (allocNode s n.itemData none).1 c P = true := by
        intro c hc
        refine subtreeIn_stable fuel (hch c hc) ?_
        intro i hp
        refine shadowAt_eq_of_getNode_eq ?_
        rw [getNode_allocNode]
        have := hPB i hp
        rw [if_neg (by omega)]
      rcases ih.2 n.childNodes (allocNode s n.itemData none).1 s.heap.length B P
        hPB (by simp [allocNode]; omega) (by omega) hch1 with ⟨s2, hk⟩
      refine ⟨s2, s.heap.length, ?_⟩
      rw [cloneNode]
      rw [hg]
      simp only [allocNode] at hk ⊢
      rw [hk]
    refine ⟨hnode, ?_⟩
    intro cs
    induction cs with
    | nil =>
      intro s par B P _ _ _ _
      exact ⟨s, by simp [cloneKids]⟩
    | cons c cs ihc =>
      intro s par B P hPB hBs hBpar hall
      rcases hnode s c B P hPB hBs (hall c (List.mem_cons_self c cs)) with
        ⟨s1, cc, hcl⟩
      have hframe := (clone_frame (fuel + 1)).1 s c s1 (some cc) hcl
      have hccval := hframe.2.2 cc rfl
      set s2 := attachClone s1 par cc with hs2
      have hagree : ∀ i, P i = true → shadowAt s2 i = shadowAt s i := by
        intro i hp
        have hiB := hPB i hp
        refine shadowAt_eq_of_getNode_eq ?_
        rw [hs2, getNode_attachClone i (by omega) (by omega)]
        exact hframe.2.1 i (by omega)
      have hall2 : ∀ c' ∈ cs, subtreeIn (fuel + 1) s2 c' P = true := by
        intro c' hc'
        exact subtreeIn_stable (fuel + 1)
          (hall c' (List.mem_cons_of_mem c hc')) hagree
      have hlen2 : s2.heap.length = s1.heap.length := length_attachClone s1 par cc
      rcases ihc s2 par B P hPB (by omega) hBpar hall2 with ⟨s', hk⟩
      refine ⟨s', ?_⟩
      rw [cloneKids, hcl]
      exact hk

theorem zip_all_of_index {α β : Type} (p : α × β → Bool) :
    ∀ (l1 : List α) (l2 : List β), l1.length = l2.length →
      (∀ (k : Nat) (x : α) (y : β), l1[k]? = some x → l2[k]? = some y →
        p (x, y) = true) →
      (l1.zip l2).all p = true := by
  intro l1
  induction l1 with
  | nil =>
    intro l2 _ _
    simp
  | cons x l1 ih =>
    intro l2 hlen hp
    cases l2 with
    | nil => simp at hlen
    | cons y l2 =>
      simp only [List.zip_cons_cons, List.all_cons, Bool.and_eq_true]
      refine ⟨hp 0 x y (by simp) (by simp), ?_⟩
      refine ih l2 (by simpa using hlen) ?_
      intro k a b ha hb
      exact hp (k + 1) a b (by simpa using ha) (by simpa using hb)

theorem shadowAt_attachClone {s : TreeState} {par cc : Nat} (hne : par ≠ cc)
    (i : Nat) (hip : i ≠ par) :
    shadowAt (attachClone s par cc) i = shadowAt s i := by
  by_cases hic : i = cc
  · subst hic
    rcases hcc : getNode s i with _ | cn
    · refine shadowAt_eq_of_getNode_eq ?_
      simp only [attachClone, hcc]
      rcases hpar : getNode s par with _ | pn
      · exact hcc
      · rw [getNode_setNode hpar, if_neg hip, hcc]
    · rw [shadowAt, shadowAt, hcc, getNode_attachClone_cc hne hcc]
      rfl
  · exact shadowAt_eq_of_getNode_eq (getNode_attachClone i hip hic)

theorem clone_fidelity :
    ∀ (fuel : Nat),
      (∀ (s : TreeState) (id : Nat) (B : Nat) (P : Nat → Bool)
          (s' : TreeState) (cid : Nat),
        (∀ i, P i = true → i < B) → B ≤ s.heap.length →
        subtreeIn fuel s id P = true →
        cloneNode fuel s id = (s', some cid) →
        subtreeEqB fuel s id s' cid = true ∧
        subtreeIn fuel s' cid (betw s.heap.length s'.heap.length) = true) ∧
      (∀ (cs : List Nat) (s : TreeState) (par : Nat) (B : Nat) (P : Nat → Bool)
          (pn : TreeNodeRec) (s' : TreeState),
        (∀ i, P i = true → i < B) → B ≤ s.heap.length → B ≤ par →
        par < s.heap.length → getNode s par = some pn →
        (∀ c ∈ cs, subtreeIn fuel s c P = true) →
        cloneKids fuel s cs par = (s', true) →
        ∃ ccs : List Nat,
          getNode s' par = some { pn with childNodes := pn.childNodes ++ ccs } ∧
          ccs.length = cs.length ∧
          (∀ (k c cc : Nat), cs[k]? = some c → ccs[k]? = some cc →
            subtreeEqB fuel s c s' cc = true ∧
            subtreeIn fuel s' cc (betw s.heap.length s'.heap.length) = true)) := by
  intro fuel
  induction fuel with
  | zero =>
    refine ⟨?_, ?_⟩
    · intro s id B P s' cid _ _ hin _
      simp [subtreeIn] at hin
    · intro cs s par B P pn s' _ _ _ _ hpar hall hcl
      cases cs with
      | nil =>
        simp only [cloneKids, Prod.mk.injEq] at hcl
        rcases hcl with ⟨hs, _⟩
        subst hs
        refine ⟨[], by simpa using hpar, rfl, ?_⟩
        intro k c cc hc _
        simp at hc
      | cons c cs =>
        have := hall c (List.mem_cons_self c cs)
        simp [subtreeIn] at this
  | succ fuel ih =>
    have hnode : ∀ (s : TreeState) (id : Nat) (B : Nat) (P : Nat → Bool)
        (s' : TreeState) (cid : Nat),
        (∀ i, P i = true → i < B) → B ≤ s.heap.length →
        subtreeIn (fuel + 1) s id P = true →
        cloneNode (fuel + 1) s id = (s', some cid) →
        subtreeEqB (fuel + 1) s id s' cid = true ∧
        subtreeIn (fuel + 1) s' cid (betw s.heap.length s'.heap.length) = true := by
      intro s id B P s' cid hPB hBs hin hcl
      rcases subtreeIn_head hin with ⟨hPid, n, hg⟩
      have hch := subtreeIn_children hin hg
      rw [cloneNode] at hcl
      rw [hg] at hcl
      simp only [allocNode] at hcl
      set s1 : TreeState := ⟨s.heap ++ [⟨n.itemData, none, []⟩]⟩ with hs1
      rcases hk : cloneKids fuel s1 n.childNodes s.heap.length with ⟨s2, b⟩
      rw [hk] at hcl
      cases b with
      | false => simp at hcl
      | true =>
        simp only [Prod.mk.injEq, Option.some_inj] at hcl
        rcases hcl with ⟨hs', hcid⟩
        subst hs'
        subst hcid
        have hlen1 : s1.heap.length = s.heap.length + 1 := by
          rw [hs1]
          simp
        have hgl : (s.heap ++
            [({ itemData := n.itemData, parentNode := none, childNodes := [] } :
              TreeNodeRec)]).length = s.heap.length + 1 := by
          simp
        have halloc : ∀ i, i < s.heap.length → getNode s1 i = getNode s i := by
          intro i hi
          have := getNode_allocNode s n.itemData none i
          simp only [allocNode] at this
          rw [hs1, this, if_neg (Nat.ne_of_lt hi)]
        have hparalloc : getNode s1 s.heap.length =
            some ⟨n.itemData, none, []⟩ := by
          have := getNode_allocNode s n.itemData none s.heap.length
          simp only [allocNode] at this
          rw [hs1, this]
          simp
        have hch1 : ∀ c ∈ n.childNodes, subtreeIn fuel s1 c P = true := by
          intro c hc
          refine subtreeIn_stable fuel (hch c hc) ?_
          intro i hp
          have hiB := hPB i hp
          exact shadowAt_eq_of_getNode_eq (halloc i (by omega))
        rcases ih.2 n.childNodes s1 s.heap.length B P ⟨n.itemData, none, []⟩
          s2 hPB (by omega) hBs (by omega) hparalloc hch1 hk with
          ⟨ccs, hccs_par, hccs_len, hccs_pair⟩
        have hfr := (clone_frame fuel).2 n.childNodes s1 s.heap.length s2 true hk
        have hlen2 : s1.heap.length ≤ s2.heap.length := hfr.1
        constructor
        · simp only [subtreeEqB]
          rw [hg, hccs_par]
          simp only [Bool.and_eq_true, List.all_eq_true, decide_eq_true_eq]
          refine ⟨⟨by trivial, ?_⟩, ?_⟩
          · simp [hccs_len]
          · have hlen : n.childNodes.length = ccs.length := hccs_len.symm
            have := zip_all_of_index
              (fun pr => subtreeEqB fuel s pr.1 s2 pr.2) n.childNodes
              (List.nil ++ ccs) (by simpa using hlen) ?_
            · simpa using this
            · intro k x y hx hy
              have hpair := hccs_pair k x y hx (by simpa using hy)
              have heq1 := hpair.1
              have hin1 : subtreeIn fuel s1 x P = true := by
                refine hch1 x ?_
                exact (List.mem_iff_getElem?).mpr ⟨k, hx⟩
              refine subtreeEqB_congrL fuel hin1 ?_ heq1
              intro i hp
              have hiB := hPB i hp
              exact (shadowAt_eq_of_getNode_eq (halloc i (by omega))).symm
        · refine subtreeIn_build hccs_par ?_ ?_
          · simp only [betw, Bool.and_eq_true, decide_eq_true_eq]
            omega
          · intro cc hcc
            simp only [List.nil_append] at hcc
            rcases (List.mem_iff_getElem?).mp hcc with ⟨k, hk2⟩
            have hklen : k < ccs.length := by
              by_contra hge
              rw [List.getElem?_eq_none (Nat.le_of_not_lt hge)] at hk2
              exact Option.noConfusion hk2
            have hcx : n.childNodes[k]? = some n.childNodes[k] :=
              List.getElem?_eq_getElem (by omega)
            have hpair := hccs_pair k n.childNodes[k] cc hcx hk2
            refine subtreeIn_mono_P fuel ?_ hpair.2
            intro i hp
            simp only [betw, Bool.and_eq_true, decide_eq_true_eq] at hp ⊢
            omega
    refine ⟨hnode, ?_⟩
    intro cs
    induction cs with
    | nil =>
      intro s par B P pn s' _ _ _ _ hpar hall hcl
      simp only [cloneKids, Prod.mk.injEq] at hcl
      rcases hcl with ⟨hs, _⟩
      subst hs
      refine ⟨[], by simpa using hpar, rfl, ?_⟩
      intro k c cc hc _
      simp at hc
    | cons c cs ihc =>
      intro s par B P pn s' hPB hBs hBpar hparlt hpar hall hcl
      rw [cloneKids] at hcl
      rcases hcn : cloneNode (fuel + 1) s c with ⟨s1, rc⟩
      rw [hcn] at hcl
      cases rc with
      | none => simp at hcl
      | some cc =>
        simp only at hcl
        have hframe := (clone_frame (fuel + 1)).1 s c s1 (some cc) hcn
        have hccval := hframe.2.2 cc rfl
        have hfid := hnode s c B P s1 cc hPB hBs
          (hall c (List.mem_cons_self c cs)) hcn
        have hne : par ≠ cc := by omega
        set s2 := attachClone s1 par cc with hs2
        have hlen2 : s2.heap.length = s1.heap.length :=
          length_attachClone s1 par cc
        have hpar1 : getNode s1 par = some pn := by
          rw [hframe.2.1 par hparlt]
          exact hpar
        have hpar2 : getNode s2 par =
            some { pn with childNodes := pn.childNodes ++ [cc] } := by
          rw [hs2]
          exact getNode_attachClone_par hne hpar1
        have hag12 : ∀ i, i ≠ par → shadowAt s2 i = shadowAt s1 i := by
          intro i hip
          rw [hs2]
          exact shadowAt_attachClone hne i hip
        have hagP : ∀ i, P i = true → shadowAt s2 i = shadowAt s i := by
          intro i hp
          have hiB := hPB i hp
          rw [hag12 i (by omega)]
          exact shadowAt_eq_of_getNode_eq (hframe.2.1 i (by omega))
        have hall2 : ∀ c' ∈ cs, subtreeIn (fuel + 1) s2 c' P = true := by
          intro c' hc'
          exact subtreeIn_stable (fuel + 1)
            (hall c' (List.mem_cons_of_mem c hc')) hagP
        rcases ihc s2 par B P
          { pn with childNodes := pn.childNodes ++ [cc] } s'
          hPB (by omega) hBpar (by omega) hpar2 hall2 hcl with
          ⟨ccs', hpar', hlen', hpair'⟩
        have hfr2 := (clone_frame (fuel + 1)).2 cs s2 par s' true hcl
        have hregion_cc : subtreeIn (fuel + 1) s2 cc
            (betw s.heap.length s1.heap.length) = true := by
          refine subtreeIn_stable (fuel + 1) hfid.2 ?_
          intro i hp
          simp only [betw, Bool.and_eq_true, decide_eq_true_eq] at hp
          exact hag12 i (by omega)
        have hregion_cc' : subtreeIn (fuel + 1) s' cc
            (betw s.heap.length s1.heap.length) = true := by
          refine subtreeIn_stable (fuel + 1) hregion_cc ?_
          intro i hp
          simp only [betw, Bool.and_eq_true, decide_eq_true_eq] at hp
          refine shadowAt_eq_of_getNode_eq ?_
          exact hfr2.2 i (by omega) (by omega)
        have heq_cc : subtreeEqB (fuel + 1) s c s' cc = true := by
          have h1 : subtreeEqB (fuel + 1) s c s2 cc = true := by
            refine subtreeEqB_congrR (fuel + 1) hfid.2 ?_ hfid.1
            intro i hp
            simp only [betw, Bool.and_eq_true, decide_eq_true_eq] at hp
            exact hag12 i (by omega)
          refine subtreeEqB_congrR (fuel + 1) hregion_cc ?_ h1
          intro i hp
          simp only [betw, Bool.and_eq_true, decide_eq_true_eq] at hp
          refine shadowAt_eq_of_getNode_eq ?_
          exact hfr2.2 i (by omega) (by omega)
        refine ⟨cc :: ccs', ?_, by simpa using hlen', ?_⟩
        · rw [hpar']
          simp
        · intro k x y hx hy
          cases k with
          | zero =>
            simp only [List.getElem?_cons_zero, Option.some_inj] at hx hy
            subst hx
            subst hy
            refine ⟨heq_cc, ?_⟩
            refine subtreeIn_mono_P (fuel + 1) ?_ hregion_cc'
            intro i hp
            simp only [betw, Bool.and_eq_true, decide_eq_true_eq] at hp ⊢
            have := hfr2.1
            omega
          | succ k =>
            simp only [List.getElem?_cons_succ] at hx hy
            have hpairk := hpair' k x y hx hy
            have hin2 : subtreeIn (fuel + 1) s2 x P = true := by
              refine hall2 x ?_
              exact (List.mem_iff_getElem?).mpr ⟨k, hx⟩
            refine ⟨?_, ?_⟩
            · refine subtreeEqB_congrL (fuel + 1) hin2 ?_ hpairk.1
              intro i hp
              exact (hagP i hp).symm
            · refine subtreeIn_mono_P (fuel + 1) ?_ hpairk.2
              intro i hp
              simp only [betw, Bool.and_eq_true, decide_eq_true_eq] at hp ⊢
              omega

theorem insertIdx_append_length (l1 l2 : List Nat) (a : Nat) :
    (l1 ++ l2).insertIdx l1.length a = l1 ++ a :: l2 := by
  induction l1 with
  | nil => simp
  | cons x l1 ih =>
    simp only [List.cons_append, List.length_cons, List.insertIdx_succ_cons]
    rw [ih]

theorem shadowAt_setNode_parent {s : TreeState} {i : Nat} {n : TreeNodeRec}
    (hg : getNode s i = some n) (x : Option Nat) (j : Nat) :
    shadowAt (setNode s i { n with parentNode := x }) j = shadowAt s j := by
  by_cases hj : j = i
  · subst hj
    rw [shadowAt, shadowAt, getNode_setNode hg, if_pos rfl, hg]
    rfl
  · rw [shadowAt, shadowAt, getNode_setNode hg, if_neg hj]

theorem dropLoop_spec (rootId : Nat) (parentIdx : Option Nat) (s0 : TreeState)
    (pn0 : TreeNodeRec)
    (hp0 : getNode s0 (nodeForIndexId rootId parentIdx) = some pn0)
    (row0 : Nat) (hrow0 : row0 ≤ pn0.childNodes.length) (P : Nat → Bool)
    (hPB : ∀ i, P i = true →
      i < s0.heap.length ∧ i ≠ nodeForIndexId rootId parentIdx) :
    ∀ (rest : List Nat) (s : TreeState) (done : List Nat)
      (evs : List ModelEvent),
      s0.heap.length ≤ s.heap.length →
      (∀ i, i < s0.heap.length → i ≠ nodeForIndexId rootId parentIdx →
        getNode s i = getNode s0 i) →
      getNode s (nodeForIndexId rootId parentIdx) =
        some { pn0 with childNodes :=
          pn0.childNodes.take row0 ++ done ++ pn0.childNodes.drop row0 } →
      (∀ ptr ∈ rest, subtreeIn (s0.heap.length + 1) s0 ptr P = true) →
      ∃ (sF : TreeState) (rF : Nat) (evsF : List ModelEvent)
        (newCids : List Nat),
        rest.foldl (dropStep rootId parentIdx) (s, row0 + done.length, evs) =
          (sF, rF, evsF) ∧
        s.heap.length ≤ sF.heap.length ∧
        (∀ i, i < s0.heap.length → i ≠ nodeForIndexId rootId parentIdx →
          getNode sF i = getNode s i) ∧
        (∀ i, s0.heap.length ≤ i → i < s.heap.length →
          shadowAt sF i = shadowAt s i) ∧
        newCids.length = rest.length ∧
        getNode sF (nodeForIndexId rootId parentIdx) =
          some { pn0 with childNodes :=
            pn0.childNodes.take row0 ++ (done ++ newCids) ++
              pn0.childNodes.drop row0 } ∧
        (∀ cid ∈ newCids, s0.heap.length ≤ cid) ∧
        (∀ (k ptr cid : Nat), rest[k]? = some ptr → newCids[k]? = some cid →
          subtreeEqB (s0.heap.length + 1) s0 ptr sF cid = true) := by
  have hPB1 : ∀ i, P i = true → i < s0.heap.length := fun i h => (hPB i h).1
  have hPB2 : ∀ i, P i = true → i ≠ nodeForIndexId rootId parentIdx :=
    fun i h => (hPB i h).2
  have hPNlt : nodeForIndexId rootId parentIdx < s0.heap.length :=
    getNode_lt hp0
  intro rest
  induction rest with
  | nil =>
    intro s done evs hI1 hI2 hI3 _
    refine ⟨s, row0 + done.length, evs, [], rfl, Nat.le_refl _,
      fun i _ _ => rfl, fun i _ _ => rfl, rfl, by simpa using hI3, ?_, ?_⟩
    · intro cid hc
      simp at hc
    · intro k p cid _ hc
      simp at hc
  | cons ptr rest ih =>
    intro s done evs hI1 hI2 hI3 hsrc
    have hsp : subtreeIn (s0.heap.length + 1) s0 ptr P = true :=
      hsrc ptr (List.mem_cons_self ptr rest)
    have hagree_s0_s : ∀ i, P i = true → shadowAt s i = shadowAt s0 i :=
      fun i hp => shadowAt_eq_of_getNode_eq (hI2 i (hPB1 i hp) (hPB2 i hp))
    have hsp_s : subtreeIn (s0.heap.length + 1) s ptr P = true :=
      subtreeIn_stable (s0.heap.length + 1) hsp hagree_s0_s
    have hok : subtreeIn (s.heap.length + 1) s ptr P = true :=
      subtreeIn_mono_fuel (s0.heap.length + 1) (by omega) hsp_s
    obtain ⟨s1, cc, hcl⟩ :=
      (clone_ok (s.heap.length + 1)).1 s ptr s0.heap.length P hPB1 hI1 hok
    have hframe := (clone_frame (s.heap.length + 1)).1 s ptr s1 (some cc) hcl
    have hlen1 : s.heap.length ≤ s1.heap.length := hframe.1
    have hccval : cc = s.heap.length := hframe.2.2 cc rfl
    have hfid := (clone_fidelity (s.heap.length + 1)).1 s ptr s0.heap.length P
      s1 cc hPB1 hI1 hok hcl
    obtain ⟨-, ccrec, hccrec⟩ := subtreeIn_head hfid.2
    have hs1PN : getNode s1 (nodeForIndexId rootId parentIdx) =
        some { pn0 with childNodes :=
          pn0.childNodes.take row0 ++ done ++ pn0.childNodes.drop row0 } := by
      rw [hframe.2.1 (nodeForIndexId rootId parentIdx) (by omega)]
      exact hI3
    have hmidPN : getNode (setNode s1 cc
        { ccrec with parentNode := some (nodeForIndexId rootId parentIdx) })
        (nodeForIndexId rootId parentIdx) =
        some { pn0 with childNodes :=
          pn0.childNodes.take row0 ++ done ++ pn0.childNodes.drop row0 } := by
      rw [getNode_setNode hccrec, if_neg (by omega)]
      exact hs1PN
    have hins : insertChild s1 (nodeForIndexId rootId parentIdx)
        (row0 + done.length) cc =
        setNode (setNode s1 cc
          { ccrec with parentNode := some (nodeForIndexId rootId parentIdx) })
          (nodeForIndexId rootId parentIdx)
          { pn0 with childNodes :=
            (pn0.childNodes.take row0 ++ done ++
              pn0.childNodes.drop row0).insertIdx (row0 + done.length) cc } := by
      rw [insertChild_eq hccrec, hmidPN]
    have hgs2 : ∀ j, getNode (insertChild s1 (nodeForIndexId rootId parentIdx)
        (row0 + done.length) cc) j =
        if j = nodeForIndexId rootId parentIdx then
          some { pn0 with childNodes :=
            (pn0.childNodes.take row0 ++ done ++
              pn0.childNodes.drop row0).insertIdx (row0 + done.length) cc }
        else if j = cc then
          some { ccrec with
            parentNode := some (nodeForIndexId rootId parentIdx) }
        else getNode s1 j := by
      intro j
      rw [hins, getNode_setNode hmidPN, getNode_setNode hccrec]
    have hlen_s2 : (insertChild s1 (nodeForIndexId rootId parentIdx)
        (row0 + done.length) cc).heap.length = s1.heap.length := by
      rw [hins]
      simp [length_setNode]
    have hsh_s2_s1 : ∀ j, j ≠ nodeForIndexId rootId parentIdx →
        shadowAt (insertChild s1 (nodeForIndexId rootId parentIdx)
          (row0 + done.length) cc) j = shadowAt s1 j := by
      intro j hj
      have h1 : shadowAt (insertChild s1 (nodeForIndexId rootId parentIdx)
          (row0 + done.length) cc) j =
          shadowAt (setNode s1 cc { ccrec with
            parentNode := some (nodeForIndexId rootId parentIdx) }) j := by
        rw [hins]
        refine shadowAt_eq_of_getNode_eq ?_
        rw [getNode_setNode hmidPN, if_neg hj]
      rw [h1, shadowAt_setNode_parent hccrec]
    have htake : (pn0.childNodes.take row0).length = row0 := by
      simp [List.length_take]
      omega
    have hmid_ins : (pn0.childNodes.take row0 ++ done ++
        pn0.childNodes.drop row0).insertIdx (row0 + done.length) cc =
        pn0.childNodes.take row0 ++ (done ++ [cc]) ++
          pn0.childNodes.drop row0 := by
      have hlen : (pn0.childNodes.take row0 ++ done).length =
          row0 + done.length := by
        simp [htake]
      calc (pn0.childNodes.take row0 ++ done ++
            pn0.childNodes.drop row0).insertIdx (row0 + done.length) cc
          = ((pn0.childNodes.take row0 ++ done) ++
              pn0.childNodes.drop row0).insertIdx
              ((pn0.childNodes.take row0 ++ done).length) cc := by
            rw [hlen]
        _ = (pn0.childNodes.take row0 ++ done) ++ cc ::
              pn0.childNodes.drop row0 := insertIdx_append_length _ _ _
        _ = pn0.childNodes.take row0 ++ (done ++ [cc]) ++
              pn0.childNodes.drop row0 := by
            simp
    have hI1' : s0.heap.length ≤ (insertChild s1
        (nodeForIndexId rootId parentIdx)
        (row0 + done.length) cc).heap.length := by
      omega
    have hI2' : ∀ i, i < s0.heap.length →
        i ≠ nodeForIndexId rootId parentIdx →
        getNode (insertChild s1 (nodeForIndexId rootId parentIdx)
          (row0 + done.length) cc) i = getNode s0 i := by
      intro i hi hip
      rw [hgs2 i, if_neg hip, if_neg (by omega), hframe.2.1 i (by omega)]
      exact hI2 i hi hip
    have hI3' : getNode (insertChild s1 (nodeForIndexId rootId parentIdx)
        (row0 + done.length) cc) (nodeForIndexId rootId parentIdx) =
        some { pn0 with childNodes :=
          pn0.childNodes.take row0 ++ (done ++ [cc]) ++
            pn0.childNodes.drop row0 } := by
      rw [hgs2 (nodeForIndexId rootId parentIdx), hmid_ins]
      simp
    obtain ⟨evs2, hstep⟩ : ∃ evs2,
        dropStep rootId parentIdx (s, row0 + done.length, evs) ptr =
          (insertChild s1 (nodeForIndexId rootId parentIdx)
            (row0 + done.length) cc, row0 + done.length + 1, evs2) :=
      ⟨_, by
        simp only [dropStep, hcl, insertChildT]
        rfl⟩
    obtain ⟨sF, rF, evsF, ihCids, hfold, hlenF, hfrF, hshF, hcidlen, hparF,
        hcidlb, hpairF⟩ :=
      ih (insertChild s1 (nodeForIndexId rootId parentIdx)
          (row0 + done.length) cc) (done ++ [cc]) evs2 hI1' hI2' hI3'
        (fun p hp => hsrc p (List.mem_cons_of_mem ptr hp))
    have hlc : row0 + (done ++ [cc]).length = row0 + done.length + 1 := by
      simp only [List.length_append, List.length_cons, List.length_nil]
      omega
    rw [hlc] at hfold
    have hag1 : ∀ i, betw s.heap.length s1.heap.length i = true →
        shadowAt (insertChild s1 (nodeForIndexId rootId parentIdx)
          (row0 + done.length) cc) i = shadowAt s1 i := by
      intro i hp
      simp only [betw, Bool.and_eq_true, decide_eq_true_eq] at hp
      exact hsh_s2_s1 i (by omega)
    have hregion_s2 : subtreeIn (s.heap.length + 1)
        (insertChild s1 (nodeForIndexId rootId parentIdx)
          (row0 + done.length) cc) cc
        (betw s.heap.length s1.heap.length) = true :=
      subtreeIn_stable (s.heap.length + 1) hfid.2 hag1
    have hagF : ∀ i, betw s.heap.length s1.heap.length i = true →
        shadowAt sF i = shadowAt (insertChild s1
          (nodeForIndexId rootId parentIdx) (row0 + done.length) cc) i := by
      intro i hp
      simp only [betw, Bool.and_eq_true, decide_eq_true_eq] at hp
      exact hshF i (by omega) (by omega)
    have hEqB1 : subtreeEqB (s.heap.length + 1) s ptr
        (insertChild s1 (nodeForIndexId rootId parentIdx)
          (row0 + done.length) cc) cc = true :=
      subtreeEqB_congrR (s.heap.length + 1) hfid.2 hag1 hfid.1
    have hEqB2 : subtreeEqB (s.heap.length + 1) s ptr sF cc = true :=
      subtreeEqB_congrR (s.heap.length + 1) hregion_s2 hagF hEqB1
    have hEqB3 : subtreeEqB (s0.heap.length + 1) s ptr sF cc = true :=
      subtreeEqB_fuel_down (s0.heap.length + 1) (by omega) hsp_s hEqB2
    have heq_s0_sF : subtreeEqB (s0.heap.length + 1) s0 ptr sF cc = true :=
      subtreeEqB_congrL (s0.heap.length + 1) hsp_s
        (fun i hp => (hagree_s0_s i hp).symm) hEqB3
    refine ⟨sF, rF, evsF, cc :: ihCids, ?_, by omega, ?_, ?_,
      by simpa using hcidlen, ?_, ?_, ?_⟩
    · rw [List.foldl_cons, hstep]
      exact hfold
    · intro i hi hip
      rw [hfrF i hi hip, hgs2 i, if_neg hip, if_neg (by omega)]
      exact hframe.2.1 i (by omega)
    · intro i hiL his
      rw [hshF i hiL (by omega), hsh_s2_s1 i (by omega)]
      exact shadowAt_eq_of_getNode_eq (hframe.2.1 i his)
    · have hl : done ++ [cc] ++ ihCids = done ++ cc :: ihCids := by
        simp
      rw [← hl]
      exact hparF
    · intro cid hc
      rcases List.mem_cons.mp hc with h | h
      · omega
      · exact hcidlb cid h
    · intro k p cid hp hc
      cases k with
      | zero =>
        simp only [List.getElem?_cons_zero, Option.some_inj] at hp hc
        rw [← hp, ← hc]
        exact heq_s0_sF
      | succ k =>
        simp only [List.getElem?_cons_succ] at hp hc
        exact hpairF k p cid hp hc

/-- C2: an accepted tree-model drop (payload carrying the private mime
type and the application's own process id, a resolvable drop parent, an
in-range requested row, and live encoded source nodes whose subtrees
avoid the drop parent) returns `true` and inserts, at consecutive
positions starting at the mapped insertion point (`row == -1` becomes
`0` under a valid parent index and the top-level row count otherwise),
one fresh clone per encoded source node in payload order; the parent's
child count grows by exactly the number of encoded nodes and each
inserted child's subtree is structurally equal to its source's. -/
theorem tree_drop_inserts_clones (s0 : TreeState) (rootId : Nat)
    (appPid : Int) (mime : TreeMime) (row : Int) (parentIdx : Option Nat)
    (pn0 : TreeNodeRec)
    (hfmt : mime.hasFormat = true) (hpid : mime.senderPid = appPid)
    (hp0 : getNode s0 (nodeForIndexId rootId parentIdx) = some pn0)
    (hrow : row = -1 ∨ (0 ≤ row ∧ row.toNat ≤ pn0.childNodes.length))
    (hsrc : ∀ ptr ∈ mime.nodePtrs, subtreeIn (s0.heap.length + 1) s0 ptr
      (fun i => decide (i < s0.heap.length) &&
        !(i == nodeForIndexId rootId parentIdx)) = true) :
    ∃ (sF : TreeState) (evsF : List ModelEvent) (newCids : List Nat),
      dropMimeDataT s0 rootId appPid mime row parentIdx = (sF, true, evsF) ∧
      newCids.length = mime.nodePtrs.length ∧
      getNode sF (nodeForIndexId rootId parentIdx) =
        some { pn0 with childNodes :=
          pn0.childNodes.take (dropRow s0 rootId row parentIdx) ++ newCids ++
            pn0.childNodes.drop (dropRow s0 rootId row parentIdx) } ∧
      childCount sF (nodeForIndexId rootId parentIdx) =
        childCount s0 (nodeForIndexId rootId parentIdx) +
          mime.nodePtrs.length ∧
      (∀ (k ptr cid : Nat), mime.nodePtrs[k]? = some ptr →
        newCids[k]? = some cid →
        subtreeEqB (s0.heap.length + 1) s0 ptr sF cid = true) := by
  have hrow0 : dropRow s0 rootId row parentIdx ≤ pn0.childNodes.length := by
    rcases hrow with h | ⟨h1, h2⟩
    · rw [dropRow, if_pos h]
      cases parentIdx with
      | none =>
        have hg : getNode s0 rootId = some pn0 := hp0
        show childCount s0 rootId ≤ pn0.childNodes.length
        rw [childCount, hg]
      | some p => exact Nat.zero_le _
    · rw [dropRow, if_neg (by omega)]
      exact h2
  have hPB : ∀ i, (decide (i < s0.heap.length) &&
      !(i == nodeForIndexId rootId parentIdx)) = true →
      i < s0.heap.length ∧ i ≠ nodeForIndexId rootId parentIdx := by
    intro i hp
    simp only [Bool.and_eq_true, decide_eq_true_eq, Bool.not_eq_true',
      beq_eq_false_iff_ne] at hp
    exact hp
  obtain ⟨sF, rF, evsF, newCids, hfold, hlen, hfr, hsh, hcln, hpar, hlb,
      hpair⟩ :=
    dropLoop_spec rootId parentIdx s0 pn0 hp0
      (dropRow s0 rootId row parentIdx) hrow0
      (fun i => decide (i < s0.heap.length) &&
        !(i == nodeForIndexId rootId parentIdx)) hPB
      mime.nodePtrs s0 [] [] (Nat.le_refl _) (fun i _ _ => rfl)
      (by simp only [List.append_nil, List.take_append_drop]; exact hp0)
      hsrc
  have hfold' : mime.nodePtrs.foldl (dropStep rootId parentIdx)
      (s0, dropRow s0 rootId row parentIdx, []) = (sF, rF, evsF) := hfold
  have hres : dropMimeDataT s0 rootId appPid mime row parentIdx =
      (sF, true, evsF) := by
    simp only [dropMimeDataT]
    split
    · next h =>
      rw [hfmt] at h
      simp at h
    · split
      · next h =>
        rw [hpid] at h
        simp at h
      · simp only [hfold']
  refine ⟨sF, evsF, newCids, hres, hcln, hpar, ?_, hpair⟩
  rw [childCount, hpar, childCount, hp0]
  simp [List.length_take, List.length_drop]
  omega

/-- Witness for the C2 theorem at a concrete four-node store (root `0`
with children `1` and `2`, node `2` owning node `3`): dropping the
encoded subtree of node `2` onto node `1` with `row = -1`. -/
theorem tree_drop_inserts_clones_witness :
    ∃ (sF : TreeState) (evsF : List ModelEvent) (newCids : List Nat),
      dropMimeDataT ⟨[⟨["R"], none, [1, 2]⟩, ⟨["A"], some 0, []⟩,
          ⟨["B"], some 0, [3]⟩, ⟨["C"], some 2, []⟩]⟩ 0 77
        ⟨true, 77, [2]⟩ (-1) (some 1) = (sF, true, evsF) ∧
      newCids.length = 1 ∧
      getNode sF (nodeForIndexId 0 (some 1)) =
        some (⟨["A"], some 0,
          List.take (dropRow ⟨[⟨["R"], none, [1, 2]⟩, ⟨["A"], some 0, []⟩,
              ⟨["B"], some 0, [3]⟩, ⟨["C"], some 2, []⟩]⟩ 0 (-1) (some 1))
            [] ++ newCids ++
          List.drop (dropRow ⟨[⟨["R"], none, [1, 2]⟩, ⟨["A"], some 0, []⟩,
              ⟨["B"], some 0, [3]⟩, ⟨["C"], some 2, []⟩]⟩ 0 (-1) (some 1))
            []⟩ : TreeNodeRec) ∧
      childCount sF (nodeForIndexId 0 (some 1)) =
        childCount ⟨[⟨["R"], none, [1, 2]⟩, ⟨["A"], some 0, []⟩,
          ⟨["B"], some 0, [3]⟩, ⟨["C"], some 2, []⟩]⟩
          (nodeForIndexId 0 (some 1)) + 1 ∧
      (∀ (k ptr cid : Nat), [2][k]? = some ptr → newCids[k]? = some cid →
        subtreeEqB 5 ⟨[⟨["R"], none, [1, 2]⟩, ⟨["A"], some 0, []⟩,
          ⟨["B"], some 0, [3]⟩, ⟨["C"], some 2, []⟩]⟩ ptr sF cid = true) :=
  tree_drop_inserts_clones
    ⟨[⟨["R"], none, [1, 2]⟩, ⟨["A"], some 0, []⟩,
      ⟨["B"], some 0, [3]⟩, ⟨["C"], some 2, []⟩]⟩ 0 77
    ⟨true, 77, [2]⟩ (-1) (some 1) ⟨["A"], some 0, []⟩
    rfl rfl rfl (Or.inl rfl) (by decide)

/-- C7: an accepted tree-model drop never removes, detaches, or mutates
any existing node: every node other than the drop parent — in
particular every dragged source node, hence its whole subtree — is
bitwise unchanged afterwards, the drop parent keeps its data and parent
link, its previous children all remain in order (the new children are
interleaved around them as one consecutive block), and every inserted
child is a freshly allocated clone id, not an existing node. -/
theorem tree_drop_frame (s0 : TreeState) (rootId : Nat)
    (appPid : Int) (mime : TreeMime) (row : Int) (parentIdx : Option Nat)
    (pn0 : TreeNodeRec)
    (hfmt : mime.hasFormat = true) (hpid : mime.senderPid = appPid)
    (hp0 : getNode s0 (nodeForIndexId rootId parentIdx) = some pn0)
    (hrow : row = -1 ∨ (0 ≤ row ∧ row.toNat ≤ pn0.childNodes.length))
    (hsrc : ∀ ptr ∈ mime.nodePtrs, subtreeIn (s0.heap.length + 1) s0 ptr
      (fun i => decide (i < s0.heap.length) &&
        !(i == nodeForIndexId rootId parentIdx)) = true) :
    ∃ (sF : TreeState) (evsF : List ModelEvent) (newCids : List Nat),
      dropMimeDataT s0 rootId appPid mime row parentIdx = (sF, true, evsF) ∧
      s0.heap.length ≤ sF.heap.length ∧
      (∀ i, i < s0.heap.length → i ≠ nodeForIndexId rootId parentIdx →
        getNode sF i = getNode s0 i) ∧
      (∀ ptr ∈ mime.nodePtrs, getNode sF ptr = getNode s0 ptr) ∧
      getNode sF (nodeForIndexId rootId parentIdx) =
        some { pn0 with childNodes :=
          pn0.childNodes.take (dropRow s0 rootId row parentIdx) ++ newCids ++
            pn0.childNodes.drop (dropRow s0 rootId row parentIdx) } ∧
      (∀ cid ∈ newCids, s0.heap.length ≤ cid) ∧
      pn0.childNodes.Sublist
        (pn0.childNodes.take (dropRow s0 rootId row parentIdx) ++ newCids ++
          pn0.childNodes.drop (dropRow s0 rootId row parentIdx)) := by
  have hrow0 : dropRow s0 rootId row parentIdx ≤ pn0.childNodes.length := by
    rcases hrow with h | ⟨h1, h2⟩
    · rw [dropRow, if_pos h]
      cases parentIdx with
      | none =>
        have hg : getNode s0 rootId = some pn0 := hp0
        show childCount s0 rootId ≤ pn0.childNodes.length
        rw [childCount, hg]
      | some p => exact Nat.zero_le _
    · rw [dropRow, if_neg (by omega)]
      exact h2
  have hPB : ∀ i, (decide (i < s0.heap.length) &&
      !(i == nodeForIndexId rootId parentIdx)) = true →
      i < s0.heap.length ∧ i ≠ nodeForIndexId rootId parentIdx := by
    intro i hp
    simp only [Bool.and_eq_true, decide_eq_true_eq, Bool.not_eq_true',
      beq_eq_false_iff_ne] at hp
    exact hp
  obtain ⟨sF, rF, evsF, newCids, hfold, hlen, hfr, hsh, hcln, hpar, hlb,
      hpair⟩ :=
    dropLoop_spec rootId parentIdx s0 pn0 hp0
      (dropRow s0 rootId row parentIdx) hrow0
      (fun i => decide (i < s0.heap.length) &&
        !(i == nodeForIndexId rootId parentIdx)) hPB
      mime.nodePtrs s0 [] [] (Nat.le_refl _) (fun i _ _ => rfl)
      (by simp only [List.append_nil, List.take_append_drop]; exact hp0)
      hsrc
  have hfold' : mime.nodePtrs.foldl (dropStep rootId parentIdx)
      (s0, dropRow s0 rootId row parentIdx, []) = (sF, rF, evsF) := hfold
  have hres : dropMimeDataT s0 rootId appPid mime row parentIdx =
      (sF, true, evsF) := by
    simp only [dropMimeDataT]
    split
    · next h =>
      rw [hfmt] at h
      simp at h
    · split
      · next h =>
        rw [hpid] at h
        simp at h
      · simp only [hfold']
  refine ⟨sF, evsF, newCids, hres, hlen, hfr, ?_, hpar, hlb, ?_⟩
  · intro ptr hm
    have hh := (subtreeIn_head (hsrc ptr hm)).1
    have hb := hPB ptr hh
    exact hfr ptr hb.1 hb.2
  · have h3 : List.Sublist
        (pn0.childNodes.take (dropRow s0 rootId row parentIdx) ++
          pn0.childNodes.drop (dropRow s0 rootId row parentIdx))
        (pn0.childNodes.take (dropRow s0 rootId row parentIdx) ++ newCids ++
          pn0.childNodes.drop (dropRow s0 rootId row parentIdx)) := by
      rw [List.append_assoc]
      exact (List.sublist_append_right _ _).append_left _
    rw [List.take_append_drop] at h3
    exact h3

/-- Witness for the C7 theorem at the same concrete four-node store:
dropping the encoded subtree of node `2` onto node `1` with `row = -1`
leaves every pre-existing node other than node `1` untouched. -/
theorem tree_drop_frame_witness :
    ∃ (sF : TreeState) (evsF : List ModelEvent) (newCids : List Nat),
      dropMimeDataT ⟨[⟨["R"], none, [1, 2]⟩, ⟨["A"], some 0, []⟩,
          ⟨["B"], some 0, [3]⟩, ⟨["C"], some 2, []⟩]⟩ 0 77
        ⟨true, 77, [2]⟩ (-1) (some 1) = (sF, true, evsF) ∧
      4 ≤ sF.heap.length ∧
      (∀ i, i < 4 → i ≠ nodeForIndexId 0 (some 1) →
        getNode sF i = getNode ⟨[⟨["R"], none, [1, 2]⟩, ⟨["A"], some 0, []⟩,
          ⟨["B"], some 0, [3]⟩, ⟨["C"], some 2, []⟩]⟩ i) ∧
      (∀ ptr ∈ [2], getNode sF ptr =
        getNode ⟨[⟨["R"], none, [1, 2]⟩, ⟨["A"], some 0, []⟩,
          ⟨["B"], some 0, [3]⟩, ⟨["C"], some 2, []⟩]⟩ ptr) ∧
      getNode sF (nodeForIndexId 0 (some 1)) =
        some (⟨["A"], some 0,
          List.take (dropRow ⟨[⟨["R"], none, [1, 2]⟩, ⟨["A"], some 0, []⟩,
              ⟨["B"], some 0, [3]⟩, ⟨["C"], some 2, []⟩]⟩ 0 (-1) (some 1))
            [] ++ newCids ++
          List.drop (dropRow ⟨[⟨["R"], none, [1, 2]⟩, ⟨["A"], some 0, []⟩,
              ⟨["B"], some 0, [3]⟩, ⟨["C"], some 2, []⟩]⟩ 0 (-1) (some 1))
            []⟩ : TreeNodeRec) ∧
      (∀ cid ∈ newCids, 4 ≤ cid) ∧
      List.Sublist ([] : List Nat)
        (List.take (dropRow ⟨[⟨["R"], none, [1, 2]⟩, ⟨["A"], some 0, []⟩,
            ⟨["B"], some 0, [3]⟩, ⟨["C"], some 2, []⟩]⟩ 0 (-1) (some 1))
          [] ++ newCids ++
        List.drop (dropRow ⟨[⟨["R"], none, [1, 2]⟩, ⟨["A"], some 0, []⟩,
            ⟨["B"], some 0, [3]⟩, ⟨["C"], some 2, []⟩]⟩ 0 (-1) (some 1))
          []) :=
  tree_drop_frame
    ⟨[⟨["R"], none, [1, 2]⟩, ⟨["A"], some 0, []⟩,
      ⟨["B"], some 0, [3]⟩, ⟨["C"], some 2, []⟩]⟩ 0 77
    ⟨true, 77, [2]⟩ (-1) (some 1) ⟨["A"], some 0, []⟩
    rfl rfl rfl (Or.inl rfl) (by decide)

end DnD
